import Mathlib

/-!
Verification of the `proto_explorer` repository core logic.

This file shallowly embeds the two algorithmic subsystems of the repository:

* `proto_finder.py` — the import-root resolver (`find_proto_root`,
  `_extract_imports`, `_score_candidate`), over an explicit filesystem model.
* `proto_explore_searcher.py` / `proto_explorer.py` — the descriptor tree
  search/render engine (`descriptor_matches`, `show_message` in both
  revisions), over an explicit descriptor-pool model.

Filesystem paths are modelled as lists of components measured from the
filesystem root (`[]` is `/`).  File contents are modelled as already-decoded
text; the UTF-8/Latin-1 decode fallback of `_extract_imports` is modelled by
`RawFile`/`readText`.  Python's `st.markdown` / `st.expander` /`st.write`
calls are modelled as an emitted list of `Directive` values carrying the
indentation depth, the label text and the match flag, as the display layer
receives them.
-/

namespace ProtoExplorer

/-! ## Paths and the filesystem model -/

/-- An absolute filesystem path: its components from the root.  `[]` is `/`. -/
abbrev FPath := List String

/-- `Path.parent`: drop the last component; the parent of the root is the
root itself (`dropLast [] = []`), matching `pathlib`. -/
def parentPath (p : FPath) : FPath := p.dropLast

/-- The final component of a path (`Path.name`); `""` for the root. -/
def lastComponent (p : FPath) : String := p.getLast?.getD ""

/-- `pathlib.PurePath.suffix`: the extension of the final component.  With
`name.rfind('.') = i`, the suffix is `name[i:]` when `0 < i < len(name)-1`
and `""` otherwise (so `".proto"` and `"a."` have no suffix). -/
def sufGo : List Char → List Char → String
  | _, [] => ""
  | acc, c :: rest =>
    if c = '.' then (if rest = [] ∨ acc = [] then "" else String.mk ('.' :: acc))
    else sufGo (c :: acc) rest

/-- The `suffix` of a path's final component. -/
def pathSuffix (name : String) : String := sufGo [] name.toList.reverse

/-- A filesystem snapshot: regular files (with decoded text content) and
directories.  Existence checks in `proto_finder.py` are reads of this
structure. -/
structure FS where
  files : List (FPath × String)
  dirs : List FPath

/-- `path.is_dir()`. -/
def FS.isDir (fs : FS) (p : FPath) : Bool := decide (p ∈ fs.dirs)

/-- True when `p` is a regular file of the snapshot. -/
def FS.isFile (fs : FS) (p : FPath) : Bool := decide (∃ e ∈ fs.files, e.1 = p)

/-- `path.exists()`: file or directory. -/
def FS.pathExists (fs : FS) (p : FPath) : Bool := fs.isFile p || fs.isDir p

/-- The decoded text of a file, when `p` is a regular file. -/
def FS.fileText (fs : FS) (p : FPath) : Option String :=
  (fs.files.find? (fun e => decide (e.1 = p))).map (·.2)

/-- Well-formed snapshot: every proper prefix of an existing file's path is a
recorded directory (true of any real filesystem). -/
def FS.Wf (fs : FS) : Prop :=
  ∀ e ∈ fs.files, ∀ q ∈ e.1.inits, q ≠ e.1 → q ∈ fs.dirs

instance (fs : FS) : Decidable fs.Wf := by
  unfold FS.Wf; infer_instance

/-! ## Import extraction (`_IMPORT_RE`, `_extract_imports`)

The regex `^\s*import\s+(?:public|weak\s+)?\"([^\"]+)\"\s*;` is applied with
`re.MULTILINE` and `findall`; it anchors each match at a line start, so it is
embedded as a per-line parser.  Note the alternation `public|weak\s+`: after
`public` the opening quote must follow **immediately**, while after `weak`
at least one whitespace character is required. -/

/-- Python's `\s` character class. -/
def pySpace (c : Char) : Bool :=
  c = ' ' ∨ c = '\t' ∨ c = '\n' ∨ c = '\r' ∨ c = '\x0b' ∨ c = '\x0c'

/-- Strip a literal prefix, returning the remainder on success. -/
def stripPre : List Char → List Char → Option (List Char)
  | [], l => some l
  | _ :: _, [] => none
  | p :: ps, c :: cs => if p = c then stripPre ps cs else none

/-- `(?:public|weak\s+)?\"` followed by the rest: returns the remainder
starting just after the opening quote, mirroring the regex alternation with
its backtracking. -/
def afterModifier (l : List Char) : Option (List Char) :=
  let tryEmpty : Option (List Char) :=
    match l with
    | '\"' :: rest => some rest
    | _ => none
  let tryWeak : Option (List Char) :=
    match stripPre "weak".toList l with
    | some r =>
      match r with
      | c :: _ =>
        if pySpace c then
          match r.dropWhile pySpace with
          | '\"' :: rest => some rest
          | _ => tryEmpty
        else tryEmpty
      | [] => tryEmpty
    | none => tryEmpty
  match stripPre "public".toList l with
  | some r =>
    match r with
    | '\"' :: rest => some rest
    | _ => tryWeak
  | none => tryWeak

/-- `([^\"]+)\"`: a non-empty capture up to the closing quote. -/
def takeCapture : List Char → Option (List Char × List Char)
  | [] => none
  | '\"' :: _ => none
  | c :: cs =>
    let rec go (acc : List Char) : List Char → Option (List Char × List Char)
      | [] => none
      | '\"' :: rest => some (acc.reverse, rest)
      | d :: ds => go (d :: acc) ds
    go [c] cs

/-- One line against `^\s*import\s+(?:public|weak\s+)?\"([^\"]+)\"\s*;`. -/
def parseImportLine (l : List Char) : Option String :=
  let l1 := l.dropWhile pySpace
  match stripPre "import".toList l1 with
  | none => none
  | some l2 =>
    match l2 with
    | c :: _ =>
      if pySpace c then
        match afterModifier (l2.dropWhile pySpace) with
        | none => none
        | some l3 =>
          match takeCapture l3 with
          | none => none
          | some (cap, l4) =>
            match l4.dropWhile pySpace with
            | ';' :: _ => some (String.mk cap)
            | _ => none
      else none
    | [] => none

/-- Split a character list at every occurrence of `sep`. -/
def splitCh (sep : Char) : List Char → List (List Char)
  | [] => [[]]
  | c :: cs =>
    if c = sep then [] :: splitCh sep cs
    else
      match splitCh sep cs with
      | [] => [[c]]
      | l :: ls => (c :: l) :: ls

/-- Split a character list at every newline. -/
def splitNl (cs : List Char) : List (List Char) := splitCh '\n' cs

/-- `_IMPORT_RE.findall(text)`: the captured import paths, in order. -/
def extractImports (text : String) : List String :=
  (splitNl text.toList).filterMap parseImportLine

/-- A file's raw bytes, abstracted: `utf8 = none` models a
`UnicodeDecodeError`; Latin-1 decodes any byte string. -/
structure RawFile where
  utf8 : Option String
  latin1 : String

/-- `read_text(encoding="utf-8")` with the `latin-1` retry of
`_extract_imports`. -/
def readText (f : RawFile) : String := f.utf8.getD f.latin1

/-- `_extract_imports(proto_file)`. -/
def extractImportsFile (f : RawFile) : List String := extractImports (readText f)

/-! ## Candidate scoring and selection (`_score_candidate`, `find_proto_root`) -/

/-- `candidate / imp` for an import path string: `pathlib` splits on `/`,
drops empty components and restarts at the root for an absolute segment. -/
def joinImport (cand : FPath) (s : String) : FPath :=
  let comps := ((splitCh '/' s.toList).map (fun l => String.mk l)).filter (fun c => c ≠ "")
  match s.toList with
  | '/' :: _ => comps
  | _ => cand ++ comps

/-- `_score_candidate(candidate, proto_file, imports)`: the pair
`(resolved_imports_count, structure_bonus)`. -/
def scoreCandidate (fs : FS) (cand protoFile : FPath) (imports : List String) :
    Nat × Nat :=
  ((imports.filter (fun imp => fs.pathExists (joinImport cand imp))).length,
   if cand <+: protoFile then
     match protoFile.drop cand.length with
     | r0 :: _ :: _ => if fs.isDir (cand ++ [r0]) then 1 else 0
     | _ => 0
   else 0)

/-- Python tuple comparison `(a, b) > (c, d)`: strict lexicographic. -/
def pairLt (x y : Nat × Nat) : Bool := x.1 < y.1 || (x.1 = y.1 && x.2 < y.2)

/-- The candidate-ancestor list built by `find_proto_root`'s walk-up loop:
starting at the proto file's parent, stop after appending once the appended
directory is the root or `max_levels` entries were collected. -/
def buildCandidates : FPath → Nat → List FPath
  | par, 0 => [par]
  | par, 1 => [par]
  | par, m + 2 =>
    if par = [] then [par] else par :: buildCandidates (parentPath par) (m + 1)

/-- One step of the best-candidate scan: skip non-directories, replace the
current best only on strict lexicographic improvement. -/
def updateBest (fs : FS) (p : FPath) (imports : List String)
    (best : Option (Nat × Nat × FPath)) (cand : FPath) :
    Option (Nat × Nat × FPath) :=
  if fs.isDir cand then
    match best with
    | none =>
      some ((scoreCandidate fs cand p imports).1, (scoreCandidate fs cand p imports).2, cand)
    | some (brc, bb, bp) =>
      if pairLt (brc, bb) (scoreCandidate fs cand p imports)
      then some ((scoreCandidate fs cand p imports).1, (scoreCandidate fs cand p imports).2, cand)
      else some (brc, bb, bp)
  else best

/-- The scan over all candidates, in nearest-first order. -/
def selectBest (fs : FS) (p : FPath) (imports : List String)
    (cands : List FPath) : Option (Nat × Nat × FPath) :=
  cands.foldl (updateBest fs p imports) none

/-- The imports that `find_proto_root` extracts from the proto file. -/
def extractedImports (fs : FS) (p : FPath) : List String :=
  match fs.fileText p with
  | some t => extractImports t
  | none => []

/-- The inner `best` computation of `find_proto_root`. -/
def finderBest (fs : FS) (p : FPath) (maxLevels : Nat) :
    Option (Nat × Nat × FPath) :=
  selectBest fs p (extractedImports fs p) (buildCandidates (parentPath p) maxLevels)

inductive FinderError where
  | notFound
  | invalidExt
deriving DecidableEq, Repr

instance : DecidableEq (Except FinderError FPath) := fun a b =>
  match a, b with
  | .ok x, .ok y =>
    if h : x = y then .isTrue (by rw [h])
    else .isFalse (by intro hc; cases hc; exact h rfl)
  | .error x, .error y =>
    if h : x = y then .isTrue (by rw [h])
    else .isFalse (by intro hc; cases hc; exact h rfl)
  | .ok _, .error _ => .isFalse (by intro hc; cases hc)
  | .error _, .ok _ => .isFalse (by intro hc; cases hc)

/-- `find_proto_root(proto_file, max_levels)`.  `FinderError.notFound` models
`FileNotFoundError`, `FinderError.invalidExt` models the `ValueError` raised
for a non-`.proto` suffix. -/
def find_proto_root (fs : FS) (p : FPath) (maxLevels : Nat) :
    Except FinderError FPath :=
  if ¬ fs.pathExists p then .error .notFound
  else if pathSuffix (lastComponent p) ≠ ".proto" then .error .invalidExt
  else
    match finderBest fs p maxLevels with
    | none => .ok (parentPath p)
    | some (rc, b, chosen) =>
      if rc = 0 ∧ b = 0 then .ok (parentPath p) else .ok chosen

/-! ## Concrete filesystem snapshots used as witnesses/counterexamples -/

/-- Zero imports, parent at the root: no candidate earns any signal. -/
def fsNoSignal : FS := { files := [(["c.proto"], "")], dirs := [[]] }

/-- Zero imports but the grandparent candidate earns the structure bonus. -/
def fsBonus : FS :=
  { files := [(["a", "b", "c.proto"], "")], dirs := [[], ["a"], ["a", "b"]] }

/-- The spec's worked example: `/r/pkg/a.proto` importing
`"shared/common.proto"` with `/r/shared/common.proto` on disk. -/
def fsSpecExample : FS :=
  { files := [ (["r", "pkg", "a.proto"], "import \"shared/common.proto\";"),
               (["r", "shared", "common.proto"], "") ],
    dirs := [[], ["r"], ["r", "pkg"], ["r", "shared"]] }

/-- A file whose only import resolves two levels up (at `/r`) while the
filesystem root also holds `shared/c.proto` at the same relative path. -/
def fsTwoUp : FS :=
  { files := [ (["r", "x", "y", "a.proto"], "import \"shared/c.proto\";"),
               (["r", "shared", "c.proto"], ""),
               (["shared", "c.proto"], "") ],
    dirs := [[], ["r"], ["r", "x"], ["r", "x", "y"], ["r", "shared"], ["shared"]] }

/-! ## Descriptor graph model

`proto_explorer.py` / `proto_explore_searcher.py` operate on
`google.protobuf.descriptor` objects.  A descriptor graph is modelled as a
pool keyed by `full_name` (the code's sole identity notion); field type codes
are the numeric `FieldDescriptor.TYPE_*` constants (`TYPE_MESSAGE = 11`,
`TYPE_ENUM = 14`).  A field's `message_type`/`enum_type` object reference is
modelled by the referenced full name; a message reference is "truthy" exactly
when it resolves in the pool.  A regex object is modelled as its `search`
predicate `String → Bool` (`none` models `regex = None`). -/

structure FieldD where
  name : String
  ftype : Nat
  messageType : Option String
  enumType : Option String
  isRepeated : Bool
  oneofGroup : Option String
deriving DecidableEq, Repr

structure MsgD where
  fields : List FieldD
  mapEntry : Bool
deriving DecidableEq, Repr

abbrev Pool := List (String × MsgD)

/-- The inverted `FieldDescriptor.TYPE_*` table built by both scripts. -/
def TYPE_NAMES : Nat → Option String
  | 1 => some "DOUBLE"
  | 2 => some "FLOAT"
  | 3 => some "INT64"
  | 4 => some "UINT64"
  | 5 => some "INT32"
  | 6 => some "FIXED64"
  | 7 => some "FIXED32"
  | 8 => some "BOOL"
  | 9 => some "STRING"
  | 10 => some "GROUP"
  | 11 => some "MESSAGE"
  | 12 => some "BYTES"
  | 13 => some "UINT32"
  | 14 => some "ENUM"
  | 15 => some "SFIXED32"
  | 16 => some "SFIXED64"
  | 17 => some "SINT32"
  | 18 => some "SINT64"
  | _ => none

def lookupMsg (pool : Pool) (name : String) : Option MsgD :=
  (pool.find? (fun e => decide (e.1 = name))).map (·.2)

/-- `field.type == TYPE_MESSAGE and field.message_type`: the referenced
message's full name when the field is message-typed and its reference
resolves. -/
def msgRefName (pool : Pool) (f : FieldD) : Option String :=
  if f.ftype = 11 then
    match f.messageType with
    | some mn => if (lookupMsg pool mn).isSome then some mn else none
    | none => none
  else none

/-- The referenced message descriptor itself. -/
def msgRefD (pool : Pool) (f : FieldD) : Option MsgD :=
  match msgRefName pool f with
  | some mn => lookupMsg pool mn
  | none => none

/-- `field.type == TYPE_ENUM and field.enum_type`. -/
def enumRefName (f : FieldD) : Option String :=
  if f.ftype = 14 then f.enumType else none

/-- `regex.search(s) if regex else False`. -/
def searchOpt (r : Option (String → Bool)) (s : String) : Bool :=
  match r with
  | some rr => rr s
  | none => false

/-! ## `descriptor_matches` (proto_explore_searcher.py)

The recursion shares one mutable `seen` set across sibling subtrees, so the
embedding threads the set explicitly and returns it.  The recursion depth is
bounded by a fuel parameter; any fuel exceeding the number of pool entries is
sufficient (proved below), which models the Python function's termination. -/

/-- The per-field loop body of `descriptor_matches`, parameterized by the
recursive call `recur` one fuel level down. -/
def dmatchFieldsAux (pool : Pool) (r : String → Bool)
    (recur : String → List String → Bool × List String) :
    List FieldD → List String → Bool × List String
  | [], seen => (false, seen)
  | f :: fs, seen =>
    if r f.name then (true, seen)
    else
      match msgRefName pool f with
      | some mn =>
        if r mn then (true, seen)
        else
          match recur mn seen with
          | (true, seen') => (true, seen')
          | (false, seen') => dmatchFieldsAux pool r recur fs seen'
      | none =>
        match enumRefName f with
        | some en =>
          if r en then (true, seen) else dmatchFieldsAux pool r recur fs seen
        | none => dmatchFieldsAux pool r recur fs seen

/-- One expansion step of `descriptor_matches`. -/
def dmatchGoStep (pool : Pool) (r : String → Bool)
    (prev : String → List String → Bool × List String)
    (name : String) (seen : List String) : Bool × List String :=
  if name ∈ seen then (false, seen)
  else
    match lookupMsg pool name with
    | none => (false, name :: seen)
    | some m =>
      if r name then (true, name :: seen)
      else dmatchFieldsAux pool r prev m.fields (name :: seen)

/-- `descriptor_matches(desc, regex, seen)`, fuel-indexed. -/
def dmatchGo (pool : Pool) (r : String → Bool) :
    Nat → String → List String → Bool × List String
  | 0 => fun _ seen => (false, seen)
  | fuel + 1 => dmatchGoStep pool r (dmatchGo pool r fuel)

/-- The top-level `descriptor_matches(desc, regex)` call: `None` patterns
match nothing, the `seen` set starts empty, and `pool.length + 1` fuel always
suffices. -/
def descriptorMatches (pool : Pool) (r : Option (String → Bool))
    (name : String) : Bool :=
  match r with
  | none => false
  | some rr => (dmatchGo pool rr (pool.length + 1) name []).1

/-- The names of the messages directly referenced by `name`'s fields. -/
def msgChildren (pool : Pool) (name : String) : List String :=
  match lookupMsg pool name with
  | none => []
  | some m => m.fields.filterMap (msgRefName pool)

/-- One field's non-recursive match checks: its own name, the referenced
message's full name, the referenced enum's full name. -/
def fieldLocal (pool : Pool) (r : String → Bool) (f : FieldD) : Bool :=
  r f.name ||
    (match msgRefName pool f with
     | some mn => r mn
     | none => false) ||
    (match enumRefName f with
     | some en => r en
     | none => false)

/-- All non-recursive checks of one expansion of `name`. -/
def localMatch (pool : Pool) (r : String → Bool) (name : String) : Bool :=
  match lookupMsg pool name with
  | none => false
  | some m => r name || m.fields.any (fieldLocal pool r)

/-- The specification predicate for `descriptor_matches`, mirroring the
spec's recursive characterization: the pattern matches the descriptor's own
full name, or a direct field's name, or a directly referenced message or
enum type's full name, or a directly referenced message type recursively
satisfies the predicate. -/
inductive IdealMatch (pool : Pool) (r : String → Bool) : String → Prop where
  | own {n : String} {m : MsgD} :
      lookupMsg pool n = some m → r n = true → IdealMatch pool r n
  | fieldName {n : String} {m : MsgD} {f : FieldD} :
      lookupMsg pool n = some m → f ∈ m.fields → r f.name = true →
      IdealMatch pool r n
  | refMsg {n : String} {m : MsgD} {f : FieldD} {mn : String} :
      lookupMsg pool n = some m → f ∈ m.fields → msgRefName pool f = some mn →
      r mn = true → IdealMatch pool r n
  | refEnum {n : String} {m : MsgD} {f : FieldD} {en : String} :
      lookupMsg pool n = some m → f ∈ m.fields → enumRefName f = some en →
      r en = true → IdealMatch pool r n
  | recur {n : String} {m : MsgD} {f : FieldD} {mn : String} :
      lookupMsg pool n = some m → f ∈ m.fields → msgRefName pool f = some mn →
      IdealMatch pool r mn → IdealMatch pool r n

/-- The keys of the pool. -/
def poolKeys (pool : Pool) : List String := pool.map Prod.fst

/-- Fuel sufficiency: strictly more fuel than pool keys not yet seen. -/
def goodFuel (pool : Pool) (seen : List String) (fuel : Nat) : Prop :=
  ((poolKeys pool).filter (fun k => decide (k ∉ seen))).length < fuel

/-- A failed search extends the `seen` set soundly: it only grows, and every
newly seen name was fully exhausted — locally unmatched with all its message
children in the final set. -/
def SeenExt (pool : Pool) (r : String → Bool) (s0 s1 : List String) : Prop :=
  (∀ x ∈ s0, x ∈ s1) ∧
  ∀ n ∈ s1, n ∉ s0 →
    localMatch pool r n = false ∧ ∀ c ∈ msgChildren pool n, c ∈ s1

/-! ## Field labels (`show_message`, both revisions)

Both scripts compute a human-readable type name and compose the label
`- name: type`.  The searcher writes `map<K,V>` and appends no repeated
marker; `proto_explorer.py` writes `map<K, V>` and appends ` [repeated]` when
`field.is_repeated and not is_map`.  A missing `key`/`value` entry in a
map-entry message would raise `KeyError` in Python; this is modelled by the
label being `none`.  The `<mark>` highlighting rewrite of matched label text
is modelled by the match flag carried on the emitted directive, which is the
display-layer view of the output. -/

/-- `field.message_type.GetOptions().map_entry` guarded as in both scripts. -/
def isMapField (pool : Pool) (f : FieldD) : Bool :=
  match msgRefD pool f with
  | some m => m.mapEntry
  | none => false

/-- The searcher's `map<K,V>` label for a map-entry message. -/
def searcherMapLabel (pool : Pool) (entry : MsgD) : Option String :=
  match entry.fields.find? (fun f => f.name == "key"),
      entry.fields.find? (fun f => f.name == "value") with
  | some kf, some vf =>
    some ("map<" ++ (TYPE_NAMES kf.ftype).getD "UNKNOWN" ++ "," ++
      (match msgRefName pool vf with
       | some mn => mn
       | none => (TYPE_NAMES vf.ftype).getD "UNKNOWN") ++ ">")
  | _, _ => none

/-- The searcher's resolved type name (proto_explore_searcher.py 130-150). -/
def searcherTypeName (pool : Pool) (f : FieldD) : Option String :=
  if isMapField pool f then
    match msgRefD pool f with
    | some entry => searcherMapLabel pool entry
    | none => none
  else
    match msgRefName pool f with
    | some mn => some mn
    | none =>
      match enumRefName f with
      | some en => some en
      | none => some ((TYPE_NAMES f.ftype).getD (toString f.ftype))

/-- The searcher's field label `- name: type` (no repeated marker). -/
def searcherFieldLabel (pool : Pool) (f : FieldD) : Option String :=
  (searcherTypeName pool f).map (fun t => "- " ++ f.name ++ ": " ++ t)

/-- `proto_explorer.py`'s `map<K, V>` label (note the space). -/
def explorerMapLabel (pool : Pool) (entry : MsgD) : Option String :=
  match entry.fields.find? (fun f => f.name == "key"),
      entry.fields.find? (fun f => f.name == "value") with
  | some kf, some vf =>
    some ("map<" ++ (TYPE_NAMES kf.ftype).getD "UNKNOWN" ++ ", " ++
      (match msgRefName pool vf with
       | some mn => mn
       | none => (TYPE_NAMES vf.ftype).getD "UNKNOWN") ++ ">")
  | _, _ => none

/-- `proto_explorer.py`'s resolved type name (lines 107-137; the oneof loop
at lines 160-190 duplicates this block verbatim in the source). -/
def explorerTypeName (pool : Pool) (f : FieldD) : Option String :=
  if isMapField pool f then
    match msgRefD pool f with
    | some entry => explorerMapLabel pool entry
    | none => none
  else
    match msgRefName pool f with
    | some mn => some mn
    | none =>
      match enumRefName f with
      | some en => some en
      | none => some ((TYPE_NAMES f.ftype).getD (toString f.ftype))

/-- `proto_explorer.py`'s field label with the conditional repeated marker:
`label += " [repeated]"` iff `field.is_repeated and not is_map`. -/
def explorerFieldLabel (pool : Pool) (f : FieldD) : Option String :=
  (explorerTypeName pool f).map (fun t =>
    "- " ++ f.name ++ ": " ++ t ++
      (if f.isRepeated && !(isMapField pool f) then " [repeated]" else ""))

/-- A copy of a field with the `isRepeated` flag replaced. -/
def setRep (f : FieldD) (b : Bool) : FieldD :=
  { f with isRepeated := b }

/-- A copy of a field with the `oneofGroup` name replaced. -/
def setGroup (f : FieldD) (g : Option String) : FieldD :=
  { f with oneofGroup := g }

/-! ## Render output model

The sequences of `st.expander` / `st.markdown` / `st.write` calls performed
by `show_message` (both revisions) are modelled as a directive list: `panel`
is an expander opening with its expanded flag, `header` the bold full-name
markdown inside the searcher's panel, `line` an indented field label with its
match flag, `marker` the explorer's `↪ name (recursive)` write on a
revisit, and `oneofPanel` the explorer's nested `(oneof options)` expander
indented at its depth. -/

inductive Directive where
  | panel (name : String) (expanded : Bool)
  | header (name : String) (isMatch : Bool)
  | line (depth : Nat) (text : String) (isMatch : Bool)
  | marker (depth : Nat) (name : String)
  | oneofPanel (depth : Nat)
deriving DecidableEq, Repr

/-- The full names of the panels opened in a directive list. -/
def panelNames : List Directive → List String
  | [] => []
  | .panel n _ :: ds => n :: panelNames ds
  | _ :: ds => panelNames ds

/-- Render-output invariant: the visited set only grows, the opened panels
are pairwise distinct, and every opened panel was unvisited on entry and is
visited on exit. -/
def RShape (shown : List String) (out : List Directive × List String) : Prop :=
  (∀ x ∈ shown, x ∈ out.2) ∧
  (panelNames out.1).Nodup ∧
  (∀ n ∈ panelNames out.1, n ∉ shown ∧ n ∈ out.2)

/-! ## The searcher's `show_message` (proto_explore_searcher.py 97-175) -/

/-- One field of the searcher's loop: compute the label, apply the filter
policy, emit, and recurse into message fields that are not maps. -/
def renderFieldAux (pool : Pool) (r : Option (String → Bool)) (filterMode : Bool)
    (recur : String → Nat → List String → List Directive × List String)
    (depth : Nat) (f : FieldD) (shown : List String) :
    List Directive × List String :=
  match searcherFieldLabel pool f with
  | none => ([], shown)
  | some label =>
    let mf := searchOpt r label
    let skip :=
      match msgRefName pool f with
      | some mn => r.isSome && !mf && !(descriptorMatches pool r mn) && filterMode
      | none => false
    if skip then ([], shown)
    else
      let recOut :=
        if f.ftype = 11 ∧ isMapField pool f = false then
          match msgRefName pool f with
          | some mn => recur mn (depth + 1) shown
          | none => ([], shown)
        else ([], shown)
      (Directive.line depth label mf :: recOut.1, recOut.2)

/-- The searcher's field loop. -/
def renderFieldsAux (pool : Pool) (r : Option (String → Bool)) (filterMode : Bool)
    (recur : String → Nat → List String → List Directive × List String)
    (depth : Nat) : List FieldD → List String → List Directive × List String
  | [], shown => ([], shown)
  | f :: fs, shown =>
    let o1 := renderFieldAux pool r filterMode recur depth f shown
    let o2 := renderFieldsAux pool r filterMode recur depth fs o1.2
    (o1.1 ++ o2.1, o2.2)

/-- One expansion of the searcher's `show_message`. -/
def searcherShowStep (pool : Pool) (r : Option (String → Bool)) (filterMode : Bool)
    (prev : String → Nat → List String → List Directive × List String)
    (name : String) (depth : Nat) (shown : List String) :
    List Directive × List String :=
  if name ∈ shown then ([], shown)
  else
    match lookupMsg pool name with
    | none => ([], shown)
    | some m =>
      let expand := depth == 0 || (r.isSome && descriptorMatches pool r name)
      let o := renderFieldsAux pool r filterMode prev depth m.fields (name :: shown)
      (Directive.panel name expand ::
        Directive.header name (searchOpt r name) :: o.1, o.2)

/-- The searcher's `show_message`, fuel-indexed. -/
def searcherShow (pool : Pool) (r : Option (String → Bool)) (filterMode : Bool) :
    Nat → String → Nat → List String → List Directive × List String
  | 0 => fun _ _ shown => ([], shown)
  | fuel + 1 => searcherShowStep pool r filterMode (searcherShow pool r filterMode fuel)

/-! ## `proto_explorer.py`'s `show_message` (lines 83-205) -/

/-- The oneof bucket accumulator (`oneof_fields.setdefault(name, []).append`). -/
def addBucket : List (String × List FieldD) → String → FieldD →
    List (String × List FieldD)
  | [], g, f => [(g, [f])]
  | (g', b) :: rest, g, f =>
    if g' = g then (g', b ++ [f]) :: rest else (g', b) :: addBucket rest g f

/-- The `oneof_fields` mapping: groups keyed by `containing_oneof.name`, in
order of first appearance, fields appended in declaration order. -/
def oneofGroups (fields : List FieldD) : List (String × List FieldD) :=
  fields.foldl (fun acc f =>
    match f.oneofGroup with
    | none => acc
    | some g => addBucket acc g f) []

/-- `regular_fields = [f for f in desc.fields if not f.containing_oneof]`. -/
def regularFields (fields : List FieldD) : List FieldD :=
  fields.filter (fun f => f.oneofGroup.isNone)

/-- The bucket of a group name in an accumulator (empty when absent). -/
def getBucket (acc : List (String × List FieldD)) (g : String) : List FieldD :=
  ((acc.find? (fun e => decide (e.1 = g))).map (·.2)).getD []

/-- First-occurrence order of a list of group names, given names already
seen. -/
def firstOccurFrom (seen : List String) : List String → List String
  | [] => []
  | g :: gs =>
    if g ∈ seen then firstOccurFrom seen gs
    else g :: firstOccurFrom (g :: seen) gs

/-- First-occurrence order of a list of group names. -/
def firstOccur (l : List String) : List String := firstOccurFrom [] l

/-- One field emission of `proto_explorer.py`: emit the label at `emitD` and
recurse into non-map message fields at `recD` (`emitD = depth, recD = depth+1`
for regular fields; `emitD = depth+1, recD = depth+2` for oneof
alternatives, whose source block is a verbatim duplicate). -/
def explorerFieldAux (pool : Pool)
    (prev : String → Nat → List String → List Directive × List String)
    (emitD recD : Nat) (f : FieldD) (shown : List String) :
    List Directive × List String :=
  match explorerFieldLabel pool f with
  | none => ([], shown)
  | some label =>
    match (if f.ftype = 11 ∧ isMapField pool f = false
           then msgRefName pool f else none) with
    | some mn =>
      let o := prev mn recD shown
      (Directive.line emitD label false :: o.1, o.2)
    | none => ([Directive.line emitD label false], shown)

/-- A field-list loop of `proto_explorer.py`'s `show_message`. -/
def explorerList (pool : Pool)
    (prev : String → Nat → List String → List Directive × List String)
    (emitD recD : Nat) : List FieldD → List String → List Directive × List String
  | [], shown => ([], shown)
  | f :: fs, shown =>
    let o1 := explorerFieldAux pool prev emitD recD f shown
    let o2 := explorerList pool prev emitD recD fs o1.2
    (o1.1 ++ o2.1, o2.2)

/-- The oneof-group loop: group header line at `depth`, nested
`(oneof options)` expander indented at `depth+1`, alternatives emitted at
`depth+1` recursing at `depth+2`. -/
def explorerGroupsAux (pool : Pool)
    (prev : String → Nat → List String → List Directive × List String)
    (depth : Nat) : List (String × List FieldD) → List String →
    List Directive × List String
  | [], shown => ([], shown)
  | (g, gfs) :: rest, shown =>
    let alts := explorerList pool prev (depth + 1) (depth + 2) gfs shown
    let others := explorerGroupsAux pool prev depth rest alts.2
    (Directive.line depth ("- **" ++ g ++ ":** _(oneof)_") false ::
      Directive.oneofPanel (depth + 1) :: (alts.1 ++ others.1), others.2)

/-- One expansion of `proto_explorer.py`'s `show_message`: on a revisit it
writes the `↪ full_name (recursive)` marker and stops; otherwise it opens
the panel (expanded iff `depth == 0`), emits regular fields, then oneof
groups. -/
def explorerShowStep (pool : Pool)
    (prev : String → Nat → List String → List Directive × List String)
    (name : String) (depth : Nat) (shown : List String) :
    List Directive × List String :=
  if name ∈ shown then ([Directive.marker depth name], shown)
  else
    match lookupMsg pool name with
    | none => ([], shown)
    | some m =>
      let reg := explorerList pool prev depth (depth + 1)
        (regularFields m.fields) (name :: shown)
      let grp := explorerGroupsAux pool prev depth (oneofGroups m.fields) reg.2
      (Directive.panel name (depth == 0) :: (reg.1 ++ grp.1), grp.2)

/-- `proto_explorer.py`'s `show_message`, fuel-indexed. -/
def explorerShow (pool : Pool) :
    Nat → String → Nat → List String → List Directive × List String
  | 0 => fun _ _ shown => ([], shown)
  | fuel + 1 => explorerShowStep pool (explorerShow pool fuel)

/-! ## Concrete descriptor pools used as witnesses/counterexamples -/

def fAB : FieldD :=
  { name := "b", ftype := 11, messageType := some "cyc.B", enumType := none,
    isRepeated := false, oneofGroup := none }

def fBC : FieldD :=
  { name := "c", ftype := 11, messageType := some "cyc.C", enumType := none,
    isRepeated := false, oneofGroup := none }

def fCA : FieldD :=
  { name := "a", ftype := 11, messageType := some "cyc.A", enumType := none,
    isRepeated := false, oneofGroup := none }

/-- A three-message reference cycle `cyc.A → cyc.B → cyc.C → cyc.A`. -/
def cyclePool : Pool :=
  [("cyc.A", { fields := [fAB], mapEntry := false }),
   ("cyc.B", { fields := [fBC], mapEntry := false }),
   ("cyc.C", { fields := [fCA], mapEntry := false })]

/-- A pattern matching exactly the full name `cyc.C`. -/
def rHit : String → Bool := fun s => s == "cyc.C"

/-- A repeated string field (for the searcher's missing repeated marker). -/
def fRepStr : FieldD :=
  { name := "xs", ftype := 9, messageType := none, enumType := none,
    isRepeated := true, oneofGroup := none }

def fSelf : FieldD :=
  { name := "self", ftype := 11, messageType := some "s.A", enumType := none,
    isRepeated := false, oneofGroup := none }

/-- A message with a direct self-reference. -/
def selfPool : Pool := [("s.A", { fields := [fSelf], mapEntry := false })]

def fChild : FieldD :=
  { name := "child", ftype := 11, messageType := some "pc.Q", enumType := none,
    isRepeated := false, oneofGroup := none }

def fLeaf : FieldD :=
  { name := "leaf", ftype := 9, messageType := none, enumType := none,
    isRepeated := false, oneofGroup := none }

/-- Parent/child pool for the filter-policy witness. -/
def pcPool : Pool :=
  [("pc.P", { fields := [fChild], mapEntry := false }),
   ("pc.Q", { fields := [fLeaf], mapEntry := false })]

/-- A pattern that matches nothing. -/
def rNone : String → Bool := fun _ => false

def fKey : FieldD :=
  { name := "key", ftype := 9, messageType := none, enumType := none,
    isRepeated := false, oneofGroup := none }

def fVal : FieldD :=
  { name := "value", ftype := 9, messageType := none, enumType := none,
    isRepeated := false, oneofGroup := none }

/-- A synthetic `map<string, string>` entry message (repeated underneath). -/
def fMap : FieldD :=
  { name := "meta", ftype := 11, messageType := some "m.Entry",
    enumType := none, isRepeated := true, oneofGroup := none }

def mapPool : Pool :=
  [("m.Entry", { fields := [fKey, fVal], mapEntry := true })]

def fOid : FieldD :=
  { name := "id", ftype := 5, messageType := none, enumType := none,
    isRepeated := false, oneofGroup := none }

def fSms : FieldD :=
  { name := "sms", ftype := 9, messageType := none, enumType := none,
    isRepeated := false, oneofGroup := some "contact" }

def fEmail : FieldD :=
  { name := "email", ftype := 9, messageType := none, enumType := none,
    isRepeated := false, oneofGroup := some "contact" }

/-- A message with one regular field and a two-alternative oneof group. -/
def mOneof : MsgD := { fields := [fOid, fSms, fEmail], mapEntry := false }

def oneofPool : Pool := [("o.M", mOneof)]

/-! ## Helper lemmas about the resolver -/

theorem score_resolved_le (fs : FS) (c p : FPath) (imps : List String) :
    (scoreCandidate fs c p imps).1 ≤ imps.length := by
  simpa [scoreCandidate] using List.length_filter_le _ imps

theorem score_bonus_le (fs : FS) (c p : FPath) (imps : List String) :
    (scoreCandidate fs c p imps).2 ≤ 1 := by
  simp only [scoreCandidate]
  split
  · split
    · split <;> simp
    · simp
  · simp

theorem score_of_nil_imports (fs : FS) (c p : FPath) :
    (scoreCandidate fs c p []).1 = 0 := by
  simp [scoreCandidate]

theorem pairLt_false_of_le {s : Nat × Nat} (h1 : s.1 ≤ 1) (h2 : s.2 ≤ 1) :
    pairLt (1, 1) s = false := by
  rcases s with ⟨a, b⟩
  simp only [pairLt]
  simp only at h1 h2
  simp only [Bool.or_eq_false_iff, Bool.and_eq_false_iff]
  constructor
  · simpa using by omega
  · right; simpa using by omega

theorem buildCandidates_head (par : FPath) (m : Nat) :
    ∃ rest, buildCandidates par m = par :: rest := by
  match m with
  | 0 => exact ⟨[], rfl⟩
  | 1 => exact ⟨[], rfl⟩
  | k + 2 =>
    by_cases h : par = []
    · exact ⟨[], by simp [buildCandidates, h]⟩
    · refine ⟨buildCandidates (parentPath par) (k + 1), ?_⟩
      simp [buildCandidates, h]

theorem buildCandidates_step (par : FPath) (k : Nat) (h : par ≠ []) :
    buildCandidates par (k + 2) = par :: buildCandidates (parentPath par) (k + 1) := by
  simp [buildCandidates, h]

theorem buildCandidates_unfold (par : FPath) (m : Nat) (hpar : par ≠ [])
    (hm : 2 ≤ m) :
    buildCandidates par m = par :: buildCandidates (parentPath par) (m - 1) := by
  obtain ⟨k, rfl⟩ : ∃ k, m = k + 2 := ⟨m - 2, by omega⟩
  simpa using buildCandidates_step par k hpar

theorem mem_buildCandidates :
    ∀ (m : Nat) (par x : FPath), x ∈ buildCandidates par m →
      ∃ j, j + 1 ≤ max m 1 ∧ x = parentPath^[j] par := by
  intro m
  induction m using Nat.strong_induction_on with
  | _ m ih =>
    intro par x hx
    match m with
    | 0 =>
      simp only [buildCandidates, List.mem_singleton] at hx
      exact ⟨0, by omega, by simp [hx]⟩
    | 1 =>
      simp only [buildCandidates, List.mem_singleton] at hx
      exact ⟨0, by omega, by simp [hx]⟩
    | k + 2 =>
      by_cases h : par = []
      · subst h
        simp [buildCandidates] at hx
        exact ⟨0, by omega, by simp [hx]⟩
      · rw [buildCandidates_step par k h] at hx
        rcases List.mem_cons.mp hx with h1 | h1
        · exact ⟨0, by omega, by simp [h1]⟩
        · obtain ⟨j, hj, hxj⟩ := ih (k + 1) (by omega) (parentPath par) x h1
          refine ⟨j + 1, by omega, ?_⟩
          rw [Function.iterate_succ_apply, hxj]

theorem updateBest_none (fs : FS) (p : FPath) (imps : List String) (cand : FPath)
    (hdir : fs.isDir cand = true) :
    updateBest fs p imps none cand =
      some ((scoreCandidate fs cand p imps).1,
        (scoreCandidate fs cand p imps).2, cand) := by
  unfold updateBest
  rw [if_pos hdir]

theorem updateBest_some (fs : FS) (p : FPath) (imps : List String) (cand : FPath)
    (brc bb : Nat) (bp : FPath) (hdir : fs.isDir cand = true) :
    updateBest fs p imps (some (brc, bb, bp)) cand =
      (if pairLt (brc, bb) (scoreCandidate fs cand p imps)
       then some ((scoreCandidate fs cand p imps).1,
         (scoreCandidate fs cand p imps).2, cand)
       else some (brc, bb, bp)) := by
  unfold updateBest
  rw [if_pos hdir]

theorem foldl_updateBest_keep (fs : FS) (p : FPath) (imps : List String)
    (s1 s2 : Nat) (c0 : FPath) :
    ∀ cands, (∀ c ∈ cands, pairLt (s1, s2) (scoreCandidate fs c p imps) = false) →
      List.foldl (updateBest fs p imps) (some (s1, s2, c0)) cands = some (s1, s2, c0) := by
  intro cands
  induction cands with
  | nil => intro _; rfl
  | cons c cs ihc =>
    intro h
    have hc := h c (by simp)
    have hcs : ∀ c' ∈ cs, pairLt (s1, s2) (scoreCandidate fs c' p imps) = false :=
      fun c' hc' => h c' (by simp [hc'])
    simp only [List.foldl_cons]
    rw [show updateBest fs p imps (some (s1, s2, c0)) c = some (s1, s2, c0) by
      simp only [updateBest]
      split
      · simp [hc]
      · rfl]
    exact ihc hcs

theorem foldl_updateBest_zero (fs : FS) (p : FPath) (imps : List String) :
    ∀ (cands : List FPath) (acc : Option (Nat × Nat × FPath)),
      (∀ c ∈ cands, scoreCandidate fs c p imps = (0, 0)) →
      (acc = none ∨ ∃ cp, acc = some (0, 0, cp)) →
      (List.foldl (updateBest fs p imps) acc cands = none ∨
        ∃ c, List.foldl (updateBest fs p imps) acc cands = some (0, 0, c)) := by
  intro cands
  induction cands with
  | nil => intro acc _ hacc; simpa using hacc
  | cons c cs ihc =>
    intro acc hsc hacc
    have hc := hsc c (by simp)
    have hcs : ∀ c' ∈ cs, scoreCandidate fs c' p imps = (0, 0) :=
      fun c' hc' => hsc c' (by simp [hc'])
    simp only [List.foldl_cons]
    apply ihc _ hcs
    rcases hacc with hacc | ⟨cp, hacc⟩
    · subst hacc
      simp only [updateBest]
      split
      · right; exact ⟨c, by simp [hc]⟩
      · left; rfl
    · subst hacc
      simp only [updateBest]
      split
      · right
        refine ⟨cp, ?_⟩
        simp [hc, pairLt]
      · right; exact ⟨cp, rfl⟩

theorem foldl_updateBest_prop (fs : FS) (p : FPath) (imps : List String)
    (Q : FPath → Prop) :
    ∀ (cands : List FPath) (acc : Option (Nat × Nat × FPath)),
      (∀ w : Nat × Nat × FPath, acc = some w → fs.isDir w.2.2 = true ∧ Q w.2.2) →
      (∀ c ∈ cands, Q c) →
      ∀ z, List.foldl (updateBest fs p imps) acc cands = some z →
        fs.isDir z.2.2 = true ∧ Q z.2.2 := by
  intro cands
  induction cands with
  | nil => intro acc hacc _ z hz; exact hacc z hz
  | cons c cs ihc =>
    intro acc hacc hmem z hz
    simp only [List.foldl_cons] at hz
    have hmem' : ∀ c' ∈ cs, Q c' := fun c' hc' => hmem c' (by simp [hc'])
    refine ihc _ ?_ hmem' z hz
    intro w hw
    simp only [updateBest] at hw
    split at hw
    · rename_i hdir
      cases hacc0 : acc with
      | none =>
        subst hacc0
        simp only at hw
        cases hw
        exact ⟨hdir, hmem c (by simp)⟩
      | some b0 =>
        subst hacc0
        rcases b0 with ⟨brc, bb, bp⟩
        simp only at hw
        split at hw
        · cases hw; exact ⟨hdir, hmem c (by simp)⟩
        · cases hw; exact hacc _ rfl
    · exact hacc w hw

theorem fpr_eq_notFound (fs : FS) (p : FPath) (m : Nat)
    (h : fs.pathExists p = false) :
    find_proto_root fs p m = .error .notFound := by
  unfold find_proto_root
  rw [if_pos (by simp [h])]

theorem fpr_eq_invalidExt (fs : FS) (p : FPath) (m : Nat)
    (h1 : fs.pathExists p = true)
    (h2 : pathSuffix (lastComponent p) ≠ ".proto") :
    find_proto_root fs p m = .error .invalidExt := by
  unfold find_proto_root
  rw [if_neg (by simp [h1]), if_pos h2]

theorem fpr_eq_of_none (fs : FS) (p : FPath) (m : Nat)
    (h1 : fs.pathExists p = true)
    (h2 : pathSuffix (lastComponent p) = ".proto")
    (hf : finderBest fs p m = none) :
    find_proto_root fs p m = .ok (parentPath p) := by
  unfold find_proto_root
  rw [if_neg (by simp [h1]), if_neg (by simp [h2]), hf]

theorem fpr_eq_of_some (fs : FS) (p : FPath) (m : Nat) (rc b : Nat) (c : FPath)
    (h1 : fs.pathExists p = true)
    (h2 : pathSuffix (lastComponent p) = ".proto")
    (hf : finderBest fs p m = some (rc, b, c)) :
    find_proto_root fs p m =
      (if rc = 0 ∧ b = 0 then .ok (parentPath p) else .ok c) := by
  unfold find_proto_root
  rw [if_neg (by simp [h1]), if_neg (by simp [h2]), hf]

/-! ## Claim theorems: the import-root resolver -/

/-- **C2.** Import extraction: the program's regex
`^\s*import\s+(?:public|weak\s+)?\"([^\"]+)\"\s*;` only admits whitespace
after the `weak` modifier, never after `public`, so the standard declaration
`import public "a.proto";` is *not* collected — contradicting the documented
form `import ["public"|"weak"] "<path>";`.  Plain and `weak` declarations are
collected in order of appearance, and a non-UTF-8 file falls back to the
Latin-1 decoding. -/
theorem c2_import_extraction_eval :
    extractImports "import public \"a.proto\";" = [] ∧
    extractImports "import public\"a.proto\";" = ["a.proto"] ∧
    extractImports "import weak \"w.proto\";\nimport \"x/y.proto\";" =
      ["w.proto", "x/y.proto"] ∧
    extractImportsFile { utf8 := none, latin1 := "import \"latin.proto\";" } =
      ["latin.proto"] ∧
    extractImportsFile { utf8 := some "import \"u.proto\";", latin1 := "zzz" } =
      ["u.proto"] := by
  refine ⟨by decide, by decide, by decide, by decide, by decide⟩

/-- **C1 (counterexample).** A schema file with zero extractable imports for
which `find_proto_root` does *not* return the parent directory: the
grandparent `/a` earns the structure bonus (score `(0, 1)`), beating the
parent's `(0, 0)`. -/
theorem c1_zero_imports_counterexample :
    extractedImports fsBonus ["a", "b", "c.proto"] = [] ∧
    fsBonus.pathExists ["a", "b", "c.proto"] = true ∧
    pathSuffix (lastComponent ["a", "b", "c.proto"]) = ".proto" ∧
    find_proto_root fsBonus ["a", "b", "c.proto"] 16 = .ok ["a"] ∧
    find_proto_root fsBonus ["a", "b", "c.proto"] 16 ≠
      .ok (parentPath ["a", "b", "c.proto"]) := by
  refine ⟨by decide, by decide, by decide, by decide, by decide⟩

/-- **C1 (amended).** The fallback to the schema file's immediate parent
happens exactly when the best candidate score is `(0, 0)`; zero
extractable imports alone do not suffice, the structure bonus must also be absent from
every candidate.  Under those conditions the parent is returned. -/
theorem c1_fallback_parent_of_no_signal (fs : FS) (p : FPath) (m : Nat)
    (hex : fs.pathExists p = true)
    (hsuf : pathSuffix (lastComponent p) = ".proto")
    (himp : extractedImports fs p = [])
    (hb : ∀ cand ∈ buildCandidates (parentPath p) m,
      (scoreCandidate fs cand p []).2 = 0) :
    find_proto_root fs p m = .ok (parentPath p) := by
  have hscore : ∀ cand ∈ buildCandidates (parentPath p) m,
      scoreCandidate fs cand p [] = (0, 0) := by
    intro cand hc
    have h1 := score_of_nil_imports fs cand p
    have h2 := hb cand hc
    rcases h : scoreCandidate fs cand p [] with ⟨a, b⟩
    rw [h] at h1 h2
    simp only at h1 h2
    simp [h1, h2]
  have hfold := foldl_updateBest_zero fs p []
    (buildCandidates (parentPath p) m) none hscore (Or.inl rfl)
  have hfb : finderBest fs p m =
      List.foldl (updateBest fs p []) none (buildCandidates (parentPath p) m) := by
    simp [finderBest, selectBest, himp]
  rcases hfold with hf | ⟨c, hf⟩
  · exact fpr_eq_of_none fs p m hex hsuf (hfb.trans hf)
  · rw [fpr_eq_of_some fs p m 0 0 c hex hsuf (hfb.trans hf)]
    simp

/-- **C1 (witness).** A depth-one schema file with no imports: no candidate
earns the structure bonus and the parent (the root) is returned. -/
theorem c1_fallback_parent_witness :
    find_proto_root fsNoSignal ["c.proto"] 16 = .ok (parentPath ["c.proto"]) :=
  c1_fallback_parent_of_no_signal fsNoSignal ["c.proto"] 16
    (by decide) (by decide) (by decide) (by decide)

/-- **C9.** `find_proto_root` fails with `notFound` iff the path does not
exist; with `invalidExt` iff the path exists but its suffix is not `.proto`;
and for every existing path with the `.proto` suffix (in particular a file
with zero imports) it returns a directory path. -/
theorem c9_error_characterization (fs : FS) (p : FPath) (m : Nat) :
    (find_proto_root fs p m = .error .notFound ↔ fs.pathExists p = false) ∧
    (find_proto_root fs p m = .error .invalidExt ↔
      (fs.pathExists p = true ∧ pathSuffix (lastComponent p) ≠ ".proto")) ∧
    (fs.pathExists p = true → pathSuffix (lastComponent p) = ".proto" →
      ∃ d, find_proto_root fs p m = .ok d) := by
  by_cases h1 : fs.pathExists p = true
  · by_cases h2 : pathSuffix (lastComponent p) = ".proto"
    · have hok : ∃ d, find_proto_root fs p m = .ok d := by
        rcases hf : finderBest fs p m with _ | ⟨⟨rc, b, c⟩⟩
        · exact ⟨parentPath p, fpr_eq_of_none fs p m h1 h2 hf⟩
        · rw [fpr_eq_of_some fs p m rc b c h1 h2 hf]
          by_cases hz : rc = 0 ∧ b = 0
          · exact ⟨parentPath p, by rw [if_pos hz]⟩
          · exact ⟨c, by rw [if_neg hz]⟩
      obtain ⟨d, hd⟩ := hok
      refine ⟨?_, ?_, fun _ _ => ⟨d, hd⟩⟩
      · rw [hd]
        constructor
        · intro h; cases h
        · intro h; rw [h1] at h; cases h
      · rw [hd]
        constructor
        · intro h; cases h
        · intro h; exact absurd h2 h.2
    · refine ⟨?_, ?_, fun _ hc => absurd hc h2⟩
      · rw [fpr_eq_invalidExt fs p m h1 h2]
        constructor
        · intro h; cases h
        · intro h; rw [h1] at h; cases h
      · rw [fpr_eq_invalidExt fs p m h1 h2]
        simp [h1, h2]
  · have h1' : fs.pathExists p = false := by simpa using h1
    refine ⟨?_, ?_, fun hc => absurd hc h1⟩
    · rw [fpr_eq_notFound fs p m h1']
      simp [h1']
    · rw [fpr_eq_notFound fs p m h1']
      constructor
      · intro h; cases h
      · intro h; exact absurd h.1 h1

/-- **C9 (witness).** On the spec's example filesystem, the existing
zero-import-free `.proto` file resolves without an error. -/
theorem c9_error_witness :
    ∃ d, find_proto_root fsSpecExample ["r", "pkg", "a.proto"] 16 = .ok d :=
  (c9_error_characterization fsSpecExample ["r", "pkg", "a.proto"] 16).2.2
    (by decide) (by decide)

/-- **C10.** For an existing `.proto` path, the directory returned by
`find_proto_root` is the file's parent or one of its ancestors reached within
`max maxLevels 1` upward steps (`parentPath` saturates at the root, so the
walk never steps past it); and whenever the selected best score is nonzero,
the returned path is the selected candidate, which is an existing
directory. -/
theorem c10_result_on_ancestor_chain (fs : FS) (p : FPath) (m : Nat) (d : FPath)
    (hex : fs.pathExists p = true)
    (hsuf : pathSuffix (lastComponent p) = ".proto")
    (hok : find_proto_root fs p m = .ok d) :
    (∃ k, 1 ≤ k ∧ k ≤ max m 1 ∧ d = parentPath^[k] p) ∧
    (∀ rc b c, finderBest fs p m = some (rc, b, c) → ¬(rc = 0 ∧ b = 0) →
      d = c ∧ fs.isDir c = true) := by
  have hparent : ∃ k, 1 ≤ k ∧ k ≤ max m 1 ∧ parentPath p = parentPath^[k] p :=
    ⟨1, le_refl 1, by omega, by simp⟩
  cases hf : finderBest fs p m with
  | none =>
    have hd : parentPath p = d := by
      have := (fpr_eq_of_none fs p m hex hsuf hf).symm.trans hok
      injection this
    refine ⟨hd ▸ hparent, ?_⟩
    intro rc b c h
    exact fun _ => Option.noConfusion h
  | some t =>
    obtain ⟨rc, b, c⟩ := t
    have heq := (fpr_eq_of_some fs p m rc b c hex hsuf hf).symm.trans hok
    have hcn : fs.isDir c = true ∧ c ∈ buildCandidates (parentPath p) m := by
      refine foldl_updateBest_prop fs p (extractedImports fs p)
        (· ∈ buildCandidates (parentPath p) m)
        (buildCandidates (parentPath p) m) none (by intro w hw; cases hw)
        (fun x hx => hx) (rc, b, c) ?_
      simpa [finderBest, selectBest] using hf
    constructor
    · by_cases hz : rc = 0 ∧ b = 0
      · rw [if_pos hz] at heq
        have hd : parentPath p = d := by injection heq
        exact hd ▸ hparent
      · rw [if_neg hz] at heq
        have hd : c = d := by injection heq
        obtain ⟨j, hj, hcj⟩ := mem_buildCandidates m (parentPath p) c hcn.2
        refine ⟨j + 1, by omega, by omega, ?_⟩
        rw [← hd, Function.iterate_succ_apply, hcj]
    · intro rc' b' c' h hne
      simp only [Option.some.injEq, Prod.mk.injEq] at h
      obtain ⟨e1, e2, e3⟩ := h
      subst e1; subst e2; subst e3
      rw [if_neg hne] at heq
      have hd : c = d := by injection heq
      exact ⟨hd.symm, hcn.1⟩

/-- **C5.** Nearest-wins tie-break: on a well-formed filesystem, for a schema
file whose single extracted import resolves under the ancestor two levels
above the parent directory but not under the parent or the grandparent,
`find_proto_root` returns exactly that ancestor — regardless of what farther
ancestors contain (in particular even when a farther ancestor holds a file at
the same relative import path), because candidates are scanned nearest-first
and a later candidate wins only on strict lexicographic improvement. -/
theorem c5_nearest_ancestor_two_up (fs : FS) (p : FPath) (m : Nat) (imp : String)
    (hwf : fs.Wf)
    (hfile : fs.isFile p = true)
    (hsuf : pathSuffix (lastComponent p) = ".proto")
    (hlen : 3 ≤ p.length)
    (hm : 3 ≤ m)
    (hext : extractedImports fs p = [imp])
    (hres : fs.pathExists
      (joinImport (parentPath (parentPath (parentPath p))) imp) = true)
    (hnot1 : fs.pathExists (joinImport (parentPath p) imp) = false)
    (hnot2 : fs.pathExists
      (joinImport (parentPath (parentPath p)) imp) = false) :
    find_proto_root fs p m = .ok (parentPath (parentPath (parentPath p))) := by
  set n := p.length with hn
  have hq1 : parentPath p = p.take (n - 1) := by
    simp only [parentPath, List.dropLast_eq_take, hn]
  have hq1len : (p.take (n - 1)).length = n - 1 := by rw [List.length_take]; omega
  have hq2 : parentPath (parentPath p) = p.take (n - 2) := by
    rw [hq1]
    simp only [parentPath, List.dropLast_eq_take, hq1len, List.take_take]
    congr 1
    omega
  have hq2len : (p.take (n - 2)).length = n - 2 := by rw [List.length_take]; omega
  have hq3 : parentPath (parentPath (parentPath p)) = p.take (n - 3) := by
    rw [hq2]
    simp only [parentPath, List.dropLast_eq_take, hq2len, List.take_take]
    congr 1
    omega
  have hq3len : (p.take (n - 3)).length = n - 3 := by rw [List.length_take]; omega
  rw [hq1] at hnot1
  rw [hq2] at hnot2
  rw [hq3] at hres ⊢
  -- every proper-prefix ancestor of the schema file is a directory
  obtain ⟨e, he, hep⟩ : ∃ e ∈ fs.files, e.1 = p := by
    simpa [FS.isFile] using hfile
  have hdirs : ∀ k, k < n → p.take k ∈ fs.dirs := by
    intro k hk
    refine hwf e he (p.take k) ?_ ?_
    · rw [List.mem_inits, hep]
      exact List.take_prefix k p
    · rw [hep]
      intro hq
      have := congrArg List.length hq
      rw [List.length_take] at this
      omega
  have hdir1 : fs.isDir (p.take (n - 1)) = true := by
    simp only [FS.isDir, decide_eq_true_eq]
    exact hdirs _ (by omega)
  have hdir2 : fs.isDir (p.take (n - 2)) = true := by
    simp only [FS.isDir, decide_eq_true_eq]
    exact hdirs _ (by omega)
  have hdir3 : fs.isDir (p.take (n - 3)) = true := by
    simp only [FS.isDir, decide_eq_true_eq]
    exact hdirs _ (by omega)
  -- scores of the three nearest candidates
  have hsc1a : (scoreCandidate fs (p.take (n - 1)) p [imp]).1 = 0 := by
    show (List.filter _ [imp]).length = 0
    simp [List.filter_singleton, hnot1]
  have hsc1b : (scoreCandidate fs (p.take (n - 1)) p [imp]).2 = 0 := by
    obtain ⟨a, ha⟩ : ∃ a, p.drop (n - 1) = [a] :=
      List.length_eq_one.mp (by rw [List.length_drop]; omega)
    show (if _ <+: _ then _ else _) = 0
    rw [if_pos (List.take_prefix _ _), hq1len, ha]
  have hsc2a : (scoreCandidate fs (p.take (n - 2)) p [imp]).1 = 0 := by
    show (List.filter _ [imp]).length = 0
    simp [List.filter_singleton, hnot2]
  have hsc3a : (scoreCandidate fs (p.take (n - 3)) p [imp]).1 = 1 := by
    show (List.filter _ [imp]).length = 1
    simp [List.filter_singleton, hres]
  have hsc3b : (scoreCandidate fs (p.take (n - 3)) p [imp]).2 = 1 := by
    obtain ⟨a, b, c, habc⟩ : ∃ a b c, p.drop (n - 3) = [a, b, c] :=
      List.length_eq_three.mp (by rw [List.length_drop]; omega)
    have htk : p.take (n - 3) ++ [a] = p.take (n - 2) := by
      have h9 : p.take (n - 3 + 1) = p.take (n - 3) ++ [a] := by
        rw [List.take_add, habc]
        rfl
      rw [← h9]
      congr 1
      omega
    show (if _ <+: _ then _ else _) = 1
    rw [if_pos (List.take_prefix _ _), hq3len, habc]
    show (if fs.isDir (p.take (n - 3) ++ [a]) then 1 else 0) = 1
    rw [htk, if_pos hdir2]
  -- the candidate list starts with the three nearest ancestors
  have hne1 : parentPath p ≠ [] := by
    rw [hq1]
    intro h
    have := congrArg List.length h
    rw [hq1len] at this
    simp at this
    omega
  have hne2 : parentPath (parentPath p) ≠ [] := by
    rw [hq2]
    intro h
    have := congrArg List.length h
    rw [hq2len] at this
    simp at this
    omega
  obtain ⟨rest, hrest⟩ := buildCandidates_head (parentPath (parentPath (parentPath p))) (m - 2)
  have hcands : buildCandidates (parentPath p) m =
      p.take (n - 1) :: p.take (n - 2) :: p.take (n - 3) :: rest := by
    rw [buildCandidates_unfold (parentPath p) m hne1 (by omega),
        buildCandidates_unfold (parentPath (parentPath p)) (m - 1) hne2 (by omega)]
    have hmm : m - 1 - 1 = m - 2 := by omega
    rw [hmm, hrest, hq3, hq2, hq1]
  -- run the scan
  have step1 : updateBest fs p [imp] none (p.take (n - 1)) =
      some (0, 0, p.take (n - 1)) := by
    rw [updateBest_none fs p [imp] _ hdir1, hsc1a, hsc1b]
  have step2 : ∃ b2 c2, updateBest fs p [imp] (some (0, 0, p.take (n - 1)))
      (p.take (n - 2)) = some (0, b2, c2) := by
    rw [updateBest_some fs p [imp] _ 0 0 _ hdir2]
    by_cases hp : pairLt (0, 0) (scoreCandidate fs (p.take (n - 2)) p [imp]) = true
    · refine ⟨(scoreCandidate fs (p.take (n - 2)) p [imp]).2, p.take (n - 2), ?_⟩
      rw [if_pos hp, hsc2a]
    · refine ⟨0, p.take (n - 1), ?_⟩
      rw [if_neg hp]
  obtain ⟨b2, c2, step2⟩ := step2
  have step3 : updateBest fs p [imp] (some (0, b2, c2)) (p.take (n - 3)) =
      some (1, 1, p.take (n - 3)) := by
    have hplt : pairLt (0, b2) (scoreCandidate fs (p.take (n - 3)) p [imp]) = true := by
      simp [pairLt, hsc3a]
    rw [updateBest_some fs p [imp] _ 0 b2 _ hdir3, if_pos hplt, hsc3a, hsc3b]
  have hkeep : List.foldl (updateBest fs p [imp]) (some (1, 1, p.take (n - 3))) rest =
      some (1, 1, p.take (n - 3)) := by
    refine foldl_updateBest_keep fs p [imp] 1 1 (p.take (n - 3)) rest ?_
    intro c hc
    exact pairLt_false_of_le
      (le_trans (score_resolved_le fs c p [imp]) (by simp))
      (score_bonus_le fs c p [imp])
  have hfb : finderBest fs p m = some (1, 1, p.take (n - 3)) := by
    unfold finderBest selectBest
    rw [hext, hcands]
    simp only [List.foldl_cons]
    rw [step1, step2, step3, hkeep]
  have hex : fs.pathExists p = true := by
    simp [FS.pathExists, hfile]
  rw [fpr_eq_of_some fs p m 1 1 (p.take (n - 3)) hex hsuf hfb]
  rw [if_neg (by simp)]

/-- **C5 (witness).** `/r/x/y/a.proto` importing `"shared/c.proto"`, with
the import target present under `/r` (two levels up) and also under the
filesystem root: `/r` is returned. -/
theorem c5_nearest_witness :
    find_proto_root fsTwoUp ["r", "x", "y", "a.proto"] 16 =
      .ok (parentPath (parentPath (parentPath ["r", "x", "y", "a.proto"]))) :=
  c5_nearest_ancestor_two_up fsTwoUp ["r", "x", "y", "a.proto"] 16 "shared/c.proto"
    (by decide) (by decide) (by decide) (by decide) (by decide)
    (by decide) (by decide) (by decide) (by decide)

/-- **C10 (witness).** On the spec's example filesystem the returned root
`/r` is an ancestor of the schema file reached within the level bound. -/
theorem c10_result_witness :
    ∃ k, 1 ≤ k ∧ k ≤ max 16 1 ∧
      (["r"] : FPath) = parentPath^[k] ["r", "pkg", "a.proto"] :=
  (c10_result_on_ancestor_chain fsSpecExample ["r", "pkg", "a.proto"] 16 ["r"]
    (by decide) (by decide) (by decide)).1

/-! ## Claim theorems: field labels -/

theorem isMapField_setRep (pool : Pool) (f : FieldD) (b : Bool) :
    isMapField pool (setRep f b) = isMapField pool f := rfl

theorem explorerTypeName_setRep (pool : Pool) (f : FieldD) (b : Bool) :
    explorerTypeName pool (setRep f b) = explorerTypeName pool f := rfl

theorem setRep_name (f : FieldD) (b : Bool) : (setRep f b).name = f.name := rfl

theorem setRep_isRepeated (f : FieldD) (b : Bool) :
    (setRep f b).isRepeated = b := rfl

theorem isMapField_msgRefD (pool : Pool) (f : FieldD)
    (h : isMapField pool f = true) :
    ∃ entry, msgRefD pool f = some entry ∧ entry.mapEntry = true := by
  unfold isMapField at h
  cases hd : msgRefD pool f with
  | none => rw [hd] at h; cases h
  | some entry => rw [hd] at h; exact ⟨entry, rfl, h⟩

theorem searcherMapLabel_shape (pool : Pool) (entry : MsgD) (t : String)
    (h : searcherMapLabel pool entry = some t) :
    ∃ k v, t = "map<" ++ k ++ "," ++ v ++ ">" := by
  unfold searcherMapLabel at h
  cases hk : entry.fields.find? (fun f => f.name == "key") with
  | none => rw [hk] at h; cases h
  | some kf =>
    cases hv : entry.fields.find? (fun f => f.name == "value") with
    | none => rw [hk, hv] at h; cases h
    | some vf =>
      rw [hk, hv] at h
      injection h with h
      exact ⟨_, _, h.symm⟩

theorem explorerMapLabel_shape (pool : Pool) (entry : MsgD) (t : String)
    (h : explorerMapLabel pool entry = some t) :
    ∃ k v, t = "map<" ++ k ++ ", " ++ v ++ ">" := by
  unfold explorerMapLabel at h
  cases hk : entry.fields.find? (fun f => f.name == "key") with
  | none => rw [hk] at h; cases h
  | some kf =>
    cases hv : entry.fields.find? (fun f => f.name == "value") with
    | none => rw [hk, hv] at h; cases h
    | some vf =>
      rw [hk, hv] at h
      injection h with h
      exact ⟨_, _, h.symm⟩

/-- **C3 (counterexample).** In the searcher revision of `show_message`
(`proto_explore_searcher.py` 130-152, cited by the claim) no repeated
marker is ever appended: a repeated non-map string field is labeled
`- xs: STRING`, not `- xs: STRING [repeated]` as the claimed iff requires;
`proto_explorer.py`'s revision does append the marker for the same field. -/
theorem c3_repeated_marker_counterexample :
    fRepStr.isRepeated = true ∧
    isMapField [] fRepStr = false ∧
    searcherFieldLabel [] fRepStr = some "- xs: STRING" ∧
    searcherFieldLabel [] fRepStr ≠ some "- xs: STRING [repeated]" ∧
    explorerFieldLabel [] fRepStr = some "- xs: STRING [repeated]" :=
  ⟨rfl, rfl, rfl, by decide, rfl⟩

/-- **C3 (amended).** Map-typed fields are always labeled `map<K,V>`
(`map<K, V>` with a space in `proto_explorer.py`) and never carry a repeated
marker — a map field's label is flat-out independent of the `isRepeated`
flag, in both revisions; in `proto_explorer.py`'s render a repeated marker
is appended to a non-map field's label exactly when the field is repeated;
the searcher's render never appends a repeated marker (its labels are
independent of `isRepeated` for every field). -/
theorem c3_map_and_repeated_labels :
    (∀ (pool : Pool) (f : FieldD) (b b' : Bool),
      searcherFieldLabel pool (setRep f b) = searcherFieldLabel pool (setRep f b')) ∧
    (∀ (pool : Pool) (f : FieldD) (b b' : Bool), isMapField pool f = true →
      explorerFieldLabel pool (setRep f b) = explorerFieldLabel pool (setRep f b')) ∧
    (∀ (pool : Pool) (f : FieldD) (s : String), isMapField pool f = true →
      searcherFieldLabel pool f = some s →
      ∃ k v, s = "- " ++ f.name ++ ": " ++ ("map<" ++ k ++ "," ++ v ++ ">")) ∧
    (∀ (pool : Pool) (f : FieldD) (s : String), isMapField pool f = true →
      explorerFieldLabel pool f = some s →
      ∃ k v, s = "- " ++ f.name ++ ": " ++ ("map<" ++ k ++ ", " ++ v ++ ">")) ∧
    (∀ (pool : Pool) (f : FieldD), isMapField pool f = false →
      explorerFieldLabel pool (setRep f true) =
        (explorerFieldLabel pool (setRep f false)).map
          (fun s => s ++ " [repeated]")) := by
  refine ⟨fun _ _ _ _ => rfl, ?_, ?_, ?_, ?_⟩
  · intro pool f b b' h
    simp only [explorerFieldLabel, explorerTypeName_setRep, isMapField_setRep,
      setRep_name, setRep_isRepeated, h]
    simp
  · intro pool f s h hs
    unfold searcherFieldLabel at hs
    obtain ⟨t, ht, hst⟩ := Option.map_eq_some'.mp hs
    unfold searcherTypeName at ht
    rw [if_pos h] at ht
    obtain ⟨entry, hentry, _⟩ := isMapField_msgRefD pool f h
    rw [hentry] at ht
    obtain ⟨k, v, hkv⟩ := searcherMapLabel_shape pool entry t ht
    exact ⟨k, v, by rw [← hst, hkv]⟩
  · intro pool f s h hs
    unfold explorerFieldLabel at hs
    obtain ⟨t, ht, hst⟩ := Option.map_eq_some'.mp hs
    unfold explorerTypeName at ht
    rw [if_pos h] at ht
    obtain ⟨entry, hentry, _⟩ := isMapField_msgRefD pool f h
    rw [hentry] at ht
    obtain ⟨k, v, hkv⟩ := explorerMapLabel_shape pool entry t ht
    refine ⟨k, v, ?_⟩
    rw [← hst, hkv, h]
    simp [String.append_empty]
  · intro pool f h
    cases hT : explorerTypeName pool f with
    | none =>
      simp [explorerFieldLabel, explorerTypeName_setRep, hT]
    | some t =>
      simp only [explorerFieldLabel, explorerTypeName_setRep, isMapField_setRep,
        setRep_name, setRep_isRepeated, h, hT, Option.map_some']
      simp [String.append_empty, String.append_assoc]

/-- **C3 (witness).** A repeated `map<string,string>` field: its
`proto_explorer.py` label has the `map<K, V>` shape (and, per the amended
theorem's independence part, carries no repeated marker). -/
theorem c3_map_witness :
    ∃ k v, "- meta: map<STRING, STRING>" =
      "- " ++ fMap.name ++ ": " ++ ("map<" ++ k ++ ", " ++ v ++ ">") :=
  c3_map_and_repeated_labels.2.2.2.1 mapPool fMap "- meta: map<STRING, STRING>"
    (by decide) (by decide)

/-! ## Claim theorems: the filter policy -/

/-- **C6.** The searcher's filter policy: with `filter_mode` enabled and a
pattern present, a message-typed field whose composed label does not match
and whose referenced message fails `descriptor_matches` is omitted entirely —
no directive is emitted for it and its subtree is never descended (`shown` is
untouched).  With `filter_mode` disabled every field is emitted regardless of
match (the match only sets the directive's highlight flag), and a
non-message-typed field is emitted in every mode. -/
theorem c6_filter_policy :
    (∀ (pool : Pool) (rr : String → Bool)
        (recur : String → Nat → List String → List Directive × List String)
        (depth : Nat) (f : FieldD) (shown : List String) (mn label : String),
      msgRefName pool f = some mn →
      searcherFieldLabel pool f = some label →
      rr label = false →
      descriptorMatches pool (some rr) mn = false →
      renderFieldAux pool (some rr) true recur depth f shown = ([], shown)) ∧
    (∀ (pool : Pool) (r : Option (String → Bool))
        (recur : String → Nat → List String → List Directive × List String)
        (depth : Nat) (f : FieldD) (shown : List String) (label : String),
      searcherFieldLabel pool f = some label →
      ∃ rest shown', renderFieldAux pool r false recur depth f shown =
        (Directive.line depth label (searchOpt r label) :: rest, shown')) ∧
    (∀ (pool : Pool) (r : Option (String → Bool)) (filterMode : Bool)
        (recur : String → Nat → List String → List Directive × List String)
        (depth : Nat) (f : FieldD) (shown : List String) (label : String),
      msgRefName pool f = none →
      searcherFieldLabel pool f = some label →
      ∃ rest shown', renderFieldAux pool r filterMode recur depth f shown =
        (Directive.line depth label (searchOpt r label) :: rest, shown')) := by
  refine ⟨?_, ?_, ?_⟩
  · intro pool rr recur depth f shown mn label hmn hlabel hrl hdm
    simp only [renderFieldAux, hlabel, hmn, searchOpt, hrl, hdm]
    simp
  · intro pool r recur depth f shown label hlabel
    simp only [renderFieldAux, hlabel]
    cases hmn : msgRefName pool f with
    | none => exact ⟨_, _, rfl⟩
    | some mn =>
      simp only [Bool.and_false]
      exact ⟨_, _, rfl⟩
  · intro pool r filterMode recur depth f shown label hmn hlabel
    simp only [renderFieldAux, hlabel, hmn]
    exact ⟨_, _, rfl⟩

/-- **C6 (witness).** With a never-matching pattern and filter mode on, the
parent's message-typed field `child` is omitted entirely. -/
theorem c6_filter_witness :
    renderFieldAux pcPool (some rNone) true
      (searcherShow pcPool (some rNone) true 2) 0 fChild ["pc.P"] =
      ([], ["pc.P"]) :=
  c6_filter_policy.1 pcPool rNone (searcherShow pcPool (some rNone) true 2)
    0 fChild ["pc.P"] "pc.Q" "- child: pc.Q"
    (by decide) (by decide) (by decide) (by decide)

/-! ## Claim theorems: the cycle guard -/

theorem panelNames_append (l1 l2 : List Directive) :
    panelNames (l1 ++ l2) = panelNames l1 ++ panelNames l2 := by
  induction l1 with
  | nil => rfl
  | cons d ds ih => cases d <;> simp [panelNames, ih]

theorem rshape_nil (shown : List String) : RShape shown ([], shown) :=
  ⟨fun _ hx => hx, List.nodup_nil, by intro n hn; cases hn⟩

theorem rshape_marker (shown : List String) (d : Nat) (n : String) :
    RShape shown ([Directive.marker d n], shown) :=
  ⟨fun _ hx => hx, List.nodup_nil, by intro x hx; cases hx⟩

theorem rshape_comp {shown : List String} {o1 o2 : List Directive × List String}
    (h1 : RShape shown o1) (h2 : RShape o1.2 o2) :
    RShape shown (o1.1 ++ o2.1, o2.2) := by
  obtain ⟨a1, b1, c1⟩ := h1
  obtain ⟨a2, b2, c2⟩ := h2
  refine ⟨fun x hx => a2 x (a1 x hx), ?_, ?_⟩
  · show (panelNames (o1.1 ++ o2.1)).Nodup
    rw [panelNames_append]
    refine List.Nodup.append b1 b2 ?_
    intro n hn1 hn2
    exact absurd (c1 n hn1).2 (c2 n hn2).1
  · intro n hn
    rw [show panelNames (o1.1 ++ o2.1, o2.2).1 = panelNames o1.1 ++ panelNames o2.1
        from panelNames_append o1.1 o2.1] at hn
    rcases List.mem_append.mp hn with hn | hn
    · exact ⟨(c1 n hn).1, a2 n (c1 n hn).2⟩
    · exact ⟨fun hns => (c2 n hn).1 (a1 n hns), (c2 n hn).2⟩

theorem rshape_cons_line {shown : List String} {ds : List Directive}
    {s : List String} (d : Nat) (t : String) (m : Bool)
    (h : RShape shown (ds, s)) :
    RShape shown (Directive.line d t m :: ds, s) := h

theorem rshape_cons_oneof {shown : List String} {ds : List Directive}
    {s : List String} (d : Nat) (h : RShape shown (ds, s)) :
    RShape shown (Directive.oneofPanel d :: ds, s) := h

theorem rshape_open2 {shown : List String} {name : String}
    {ds : List Directive} {s : List String} (e mh : Bool)
    (hns : name ∉ shown) (h : RShape (name :: shown) (ds, s)) :
    RShape shown
      (Directive.panel name e :: Directive.header name mh :: ds, s) := by
  obtain ⟨a, b, c⟩ := h
  refine ⟨fun x hx => a x (by simp [hx]), ?_, ?_⟩
  · show (name :: panelNames ds).Nodup
    refine List.nodup_cons.mpr ⟨fun hmem => (c name hmem).1 (by simp), b⟩
  · intro n hn
    have hn' : n = name ∨ n ∈ panelNames ds := List.mem_cons.mp hn
    rcases hn' with rfl | hn'
    · exact ⟨hns, a n (by simp)⟩
    · refine ⟨fun hc => (c n hn').1 (by simp [hc]), (c n hn').2⟩

theorem rshape_open1 {shown : List String} {name : String}
    {ds : List Directive} {s : List String} (e : Bool)
    (hns : name ∉ shown) (h : RShape (name :: shown) (ds, s)) :
    RShape shown (Directive.panel name e :: ds, s) := by
  obtain ⟨a, b, c⟩ := h
  refine ⟨fun x hx => a x (by simp [hx]), ?_, ?_⟩
  · show (name :: panelNames ds).Nodup
    refine List.nodup_cons.mpr ⟨fun hmem => (c name hmem).1 (by simp), b⟩
  · intro n hn
    have hn' : n = name ∨ n ∈ panelNames ds := List.mem_cons.mp hn
    rcases hn' with rfl | hn'
    · exact ⟨hns, a n (by simp)⟩
    · refine ⟨fun hc => (c n hn').1 (by simp [hc]), (c n hn').2⟩

theorem searcherShow_rshape (pool : Pool) (r : Option (String → Bool)) (fm : Bool) :
    ∀ fuel name depth shown,
      RShape shown (searcherShow pool r fm fuel name depth shown) := by
  intro fuel
  induction fuel with
  | zero => intro name depth shown; exact rshape_nil shown
  | succ fuel ih =>
    have hfield : ∀ depth f shown,
        RShape shown (renderFieldAux pool r fm
          (searcherShow pool r fm fuel) depth f shown) := by
      intro depth f shown
      simp only [renderFieldAux]
      cases hl : searcherFieldLabel pool f with
      | none => exact rshape_nil shown
      | some label =>
        simp only
        split
        · exact rshape_nil shown
        · refine rshape_cons_line _ _ _ ?_
          split
          · split
            · exact ih _ _ _
            · exact rshape_nil shown
          · exact rshape_nil shown
    have hfields : ∀ fs depth shown,
        RShape shown (renderFieldsAux pool r fm
          (searcherShow pool r fm fuel) depth fs shown) := by
      intro fs
      induction fs with
      | nil => intro depth shown; exact rshape_nil shown
      | cons f fs ihf =>
        intro depth shown
        simp only [renderFieldsAux]
        exact rshape_comp (hfield depth f shown) (ihf depth _)
    intro name depth shown
    show RShape shown (searcherShowStep pool r fm
      (searcherShow pool r fm fuel) name depth shown)
    simp only [searcherShowStep]
    split
    · exact rshape_nil shown
    · rename_i hns
      cases hlk : lookupMsg pool name with
      | none => exact rshape_nil shown
      | some m =>
        simp only
        exact rshape_open2 _ _ hns (hfields m.fields depth (name :: shown))

theorem explorerShow_rshape (pool : Pool) :
    ∀ fuel name depth shown,
      RShape shown (explorerShow pool fuel name depth shown) := by
  intro fuel
  induction fuel with
  | zero => intro name depth shown; exact rshape_nil shown
  | succ fuel ih =>
    have hfield : ∀ emitD recD f shown,
        RShape shown (explorerFieldAux pool
          (explorerShow pool fuel) emitD recD f shown) := by
      intro emitD recD f shown
      simp only [explorerFieldAux]
      cases hl : explorerFieldLabel pool f with
      | none => exact rshape_nil shown
      | some label =>
        simp only
        split
        · exact rshape_cons_line _ _ _ (ih _ _ _)
        · exact ⟨fun _ hx => hx, List.nodup_nil, by intro x hx; cases hx⟩
    have hlist : ∀ fs emitD recD shown,
        RShape shown (explorerList pool
          (explorerShow pool fuel) emitD recD fs shown) := by
      intro fs
      induction fs with
      | nil => intro emitD recD shown; exact rshape_nil shown
      | cons f fs ihf =>
        intro emitD recD shown
        simp only [explorerList]
        exact rshape_comp (hfield emitD recD f shown) (ihf emitD recD _)
    have hgroups : ∀ gs depth shown,
        RShape shown (explorerGroupsAux pool
          (explorerShow pool fuel) depth gs shown) := by
      intro gs
      induction gs with
      | nil => intro depth shown; exact rshape_nil shown
      | cons gp rest ihg =>
        intro depth shown
        obtain ⟨g, gfs⟩ := gp
        simp only [explorerGroupsAux]
        refine rshape_cons_line _ _ _ (rshape_cons_oneof _ ?_)
        exact rshape_comp (hlist gfs (depth + 1) (depth + 2) shown) (ihg depth _)
    intro name depth shown
    show RShape shown (explorerShowStep pool
      (explorerShow pool fuel) name depth shown)
    simp only [explorerShowStep]
    split
    · exact rshape_marker shown depth name
    · rename_i hns
      cases hlk : lookupMsg pool name with
      | none => exact rshape_nil shown
      | some m =>
        simp only
        refine rshape_open1 _ hns ?_
        exact rshape_comp (hlist (regularFields m.fields) depth (depth + 1) (name :: shown))
          (hgroups (oneofGroups m.fields) depth _)

/-- **C8 (counterexample).** On a direct self-reference, `proto_explorer.py`'s
`show_message` does *not* emit nothing on the revisit: reaching `s.A` with
`s.A` already in the visited set emits the `↪ s.A (recursive)` marker line,
so "emitting nothing further for that branch" fails on this revision. -/
theorem c8_revisit_emission_counterexample :
    explorerShow selfPool 3 "s.A" 1 ["s.A"] =
      ([Directive.marker 1 "s.A"], ["s.A"]) ∧
    ([Directive.marker 1 "s.A"] : List Directive) ≠ [] ∧
    explorerShow selfPool 3 "s.A" 0 [] =
      ([Directive.panel "s.A" true, Directive.line 0 "- self: s.A" false,
        Directive.marker 1 "s.A"], ["s.A"]) :=
  ⟨by decide, by decide, by decide⟩

/-- **C8 (amended).** Neither render ever opens the same full name's panel
twice in one call (so never twice along a root-to-leaf path, even on cyclic
graphs), and neither recurses on a revisit; on reaching a descriptor already
in the visited set the searcher emits nothing further, while
`proto_explorer.py` emits exactly one `↪ full_name (recursive)` marker line
(rather than nothing) and stops. -/
theorem c8_cycle_guard :
    (∀ (pool : Pool) (r : Option (String → Bool)) (fm : Bool) (fuel : Nat)
        (name : String) (depth : Nat) (shown : List String), name ∈ shown →
      searcherShow pool r fm fuel name depth shown = ([], shown)) ∧
    (∀ (pool : Pool) (fuel : Nat) (name : String) (depth : Nat)
        (shown : List String), name ∈ shown →
      explorerShow pool (fuel + 1) name depth shown =
        ([Directive.marker depth name], shown)) ∧
    (∀ (pool : Pool) (r : Option (String → Bool)) (fm : Bool) (fuel : Nat)
        (name : String) (depth : Nat),
      (panelNames (searcherShow pool r fm fuel name depth []).1).Nodup) ∧
    (∀ (pool : Pool) (fuel : Nat) (name : String) (depth : Nat),
      (panelNames (explorerShow pool fuel name depth []).1).Nodup) := by
  refine ⟨?_, ?_, ?_, ?_⟩
  · intro pool r fm fuel name depth shown hmem
    cases fuel with
    | zero => rfl
    | succ fuel =>
      show searcherShowStep pool r fm (searcherShow pool r fm fuel)
        name depth shown = ([], shown)
      simp only [searcherShowStep]
      rw [if_pos hmem]
  · intro pool fuel name depth shown hmem
    show explorerShowStep pool (explorerShow pool fuel) name depth shown =
      ([Directive.marker depth name], shown)
    simp only [explorerShowStep]
    rw [if_pos hmem]
  · intro pool r fm fuel name depth
    exact (searcherShow_rshape pool r fm fuel name depth []).2.1
  · intro pool fuel name depth
    exact (explorerShow_rshape pool fuel name depth []).2.1

/-- **C8 (witness).** The searcher's render emits nothing on a revisit of the
self-referential message. -/
theorem c8_cycle_guard_witness :
    searcherShow selfPool none false 3 "s.A" 1 ["s.A"] = ([], ["s.A"]) :=
  c8_cycle_guard.1 selfPool none false 3 "s.A" 1 ["s.A"] (by decide)

/-! ## Claim theorems: oneof partitioning -/

theorem addBucket_keys_mem (acc : List (String × List FieldD)) (g : String)
    (f : FieldD) (h : g ∈ acc.map Prod.fst) :
    (addBucket acc g f).map Prod.fst = acc.map Prod.fst := by
  induction acc with
  | nil => simp at h
  | cons e rest ih =>
    obtain ⟨g', b⟩ := e
    by_cases hg : g' = g
    · subst hg; simp [addBucket]
    · simp only [List.map_cons, List.mem_cons] at h
      rcases h with h | h

      · exact absurd h.symm hg
      · simp [addBucket, hg, ih h]

theorem addBucket_keys_not_mem (acc : List (String × List FieldD)) (g : String)
    (f : FieldD) (h : g ∉ acc.map Prod.fst) :
    (addBucket acc g f).map Prod.fst = acc.map Prod.fst ++ [g] := by
  induction acc with
  | nil => simp [addBucket]
  | cons e rest ih =>
    obtain ⟨g', b⟩ := e
    simp only [List.map_cons, List.mem_cons] at h
    push_neg at h
    by_cases hg : g' = g
    · exact absurd hg.symm h.1
    · simp [addBucket, hg, ih h.2]

theorem getBucket_cons (g' : String) (b : List FieldD)
    (l : List (String × List FieldD)) (g : String) :
    getBucket ((g', b) :: l) g = if g' = g then b else getBucket l g := by
  by_cases h : g' = g <;> simp [getBucket, h]

theorem addBucket_cons_ne (g' : String) (b : List FieldD)
    (l : List (String × List FieldD)) (g : String) (f : FieldD) (h : g' ≠ g) :
    addBucket ((g', b) :: l) g f = (g', b) :: addBucket l g f := by
  simp [addBucket, h]

theorem addBucket_cons_eq (g' : String) (b : List FieldD)
    (l : List (String × List FieldD)) (g : String) (f : FieldD) (h : g' = g) :
    addBucket ((g', b) :: l) g f = (g', b ++ [f]) :: l := by
  simp [addBucket, h]

theorem getBucket_addBucket_same (acc : List (String × List FieldD)) (g : String)
    (f : FieldD) :
    getBucket (addBucket acc g f) g = getBucket acc g ++ [f] := by
  induction acc with
  | nil => simp [addBucket, getBucket]
  | cons e rest ih =>
    obtain ⟨g', b⟩ := e
    by_cases hg : g' = g
    · subst hg
      rw [addBucket_cons_eq g' b rest g' f rfl, getBucket_cons, getBucket_cons]
      simp
    · rw [addBucket_cons_ne g' b rest g f hg, getBucket_cons, getBucket_cons]
      simp [hg, ih]

theorem getBucket_addBucket_other (acc : List (String × List FieldD))
    (g' g : String) (f : FieldD) (hgg : g' ≠ g) :
    getBucket (addBucket acc g' f) g = getBucket acc g := by
  induction acc with
  | nil => simp [addBucket, getBucket, hgg]
  | cons e rest ih =>
    obtain ⟨g'', b⟩ := e
    by_cases hg : g'' = g'
    · subst hg
      rw [addBucket_cons_eq g'' b rest g'' f rfl, getBucket_cons, getBucket_cons]
      simp [hgg]
    · rw [addBucket_cons_ne g'' b rest g' f hg, getBucket_cons, getBucket_cons]
      by_cases hg2 : g'' = g
      · simp [hg2]
      · simp [hg2, ih]

theorem firstOccurFrom_congr :
    ∀ (l : List String) (s1 s2 : List String), (∀ x, x ∈ s1 ↔ x ∈ s2) →
      firstOccurFrom s1 l = firstOccurFrom s2 l := by
  intro l
  induction l with
  | nil => intro s1 s2 _; rfl
  | cons g gs ih =>
    intro s1 s2 hiff
    by_cases hg : g ∈ s1
    · simp [firstOccurFrom, hg, (hiff g).mp hg, ih s1 s2 hiff]
    · have hg2 : g ∉ s2 := fun hc => hg ((hiff g).mpr hc)
      show (if g ∈ s1 then _ else _) = (if g ∈ s2 then _ else _)
      rw [if_neg hg, if_neg hg2,
        ih (g :: s1) (g :: s2) (by intro x; simp [hiff x])]

theorem oneofGroups_keys_aux :
    ∀ (fields : List FieldD) (acc : List (String × List FieldD)),
      (fields.foldl (fun acc f =>
        match f.oneofGroup with
        | none => acc
        | some g => addBucket acc g f) acc).map Prod.fst =
      acc.map Prod.fst ++
        firstOccurFrom (acc.map Prod.fst)
          (fields.filterMap (fun f => f.oneofGroup)) := by
  intro fields
  induction fields with
  | nil => intro acc; simp [firstOccurFrom]
  | cons f fs ih =>
    intro acc
    cases hg : f.oneofGroup with
    | none =>
      simp only [List.foldl_cons, hg, List.filterMap_cons]
      exact ih acc
    | some g =>
      simp only [List.foldl_cons, hg, List.filterMap_cons]
      rw [ih (addBucket acc g f)]
      by_cases hmem : g ∈ acc.map Prod.fst
      · rw [addBucket_keys_mem acc g f hmem]
        simp [firstOccurFrom, hmem]
      · rw [addBucket_keys_not_mem acc g f hmem]
        rw [firstOccurFrom_congr _ (acc.map Prod.fst ++ [g]) (g :: acc.map Prod.fst)
          (by intro x; simp [or_comm])]
        simp [firstOccurFrom, hmem]

theorem oneofGroups_bucket_aux :
    ∀ (fields : List FieldD) (acc : List (String × List FieldD)) (g : String),
      getBucket (fields.foldl (fun acc f =>
        match f.oneofGroup with
        | none => acc
        | some g => addBucket acc g f) acc) g =
      getBucket acc g ++
        fields.filter (fun f => decide (f.oneofGroup = some g)) := by
  intro fields
  induction fields with
  | nil => intro acc g; simp
  | cons f fs ih =>
    intro acc g
    cases hg : f.oneofGroup with
    | none =>
      simp only [List.foldl_cons, hg, List.filter_cons]
      rw [ih acc g]
      simp [hg]
    | some g' =>
      simp only [List.foldl_cons, hg, List.filter_cons]
      rw [ih (addBucket acc g' f) g]
      by_cases hgg : g' = g
      · subst hgg
        rw [getBucket_addBucket_same acc g' f]
        simp [hg, List.append_assoc]
      · rw [getBucket_addBucket_other acc g' g f hgg]
        simp [hg, hgg]

/-- **C4 (counterexample).** The searcher revision of `show_message`
(`proto_explore_searcher.py` 130-175, also cited by the claim) performs no
oneof partitioning at all: on a message with a regular `id` field and a
two-alternative `contact` oneof, the oneof members `sms`/`email` are emitted
inline as ordinary field lines at the message's own depth, with no labeled
sub-section, no `(oneof options)` panel and nothing at `depth+1`. -/
theorem c4_searcher_no_partition_counterexample :
    fSms.oneofGroup = some "contact" ∧
    fEmail.oneofGroup = some "contact" ∧
    searcherShow oneofPool none false 2 "o.M" 0 [] =
      ([Directive.panel "o.M" true, Directive.header "o.M" false,
        Directive.line 0 "- id: INT32" false,
        Directive.line 0 "- sms: STRING" false,
        Directive.line 0 "- email: STRING" false], ["o.M"]) ∧
    Directive.oneofPanel 1 ∉ (searcherShow oneofPool none false 2 "o.M" 0 []).1 ∧
    Directive.line 1 "- sms: STRING" false ∉
      (searcherShow oneofPool none false 2 "o.M" 0 []).1 :=
  ⟨rfl, rfl, by decide, by decide, by decide⟩

/-- **C4 (amended).** The oneof partitioning and emission of
`proto_explorer.py`'s `show_message`: the group mapping lists the oneof
names in order of first appearance with each bucket holding exactly that
group's fields in declaration order; the regular list holds exactly the
fields with no oneof group; each group is emitted as its header line
followed by the `(oneof options)` sub-panel indented at `depth+1`, with the
alternatives rendered by the same field-emission function as regular fields
at `depth+1`, recursing at `depth+2`; a non-revisited message emits its
regular fields first and then its oneof groups.  The searcher revision does
none of this: its field emission is independent of the field's
`oneofGroup`, and a non-revisited message renders all of `desc.fields` as
one flat declaration-order list. -/
theorem c4_oneof_partition :
    (∀ fields : List FieldD, (oneofGroups fields).map Prod.fst =
      firstOccur (fields.filterMap (fun f => f.oneofGroup))) ∧
    (∀ (fields : List FieldD) (g : String), getBucket (oneofGroups fields) g =
      fields.filter (fun f => decide (f.oneofGroup = some g))) ∧
    (∀ (fields : List FieldD) (f : FieldD),
      f ∈ regularFields fields ↔ (f ∈ fields ∧ f.oneofGroup = none)) ∧
    (∀ (pool : Pool)
        (prev : String → Nat → List String → List Directive × List String)
        (depth : Nat) (g : String) (gfs : List FieldD)
        (rest : List (String × List FieldD)) (shown : List String),
      explorerGroupsAux pool prev depth ((g, gfs) :: rest) shown =
        (Directive.line depth ("- **" ++ g ++ ":** _(oneof)_") false ::
          Directive.oneofPanel (depth + 1) ::
          ((explorerList pool prev (depth + 1) (depth + 2) gfs shown).1 ++
            (explorerGroupsAux pool prev depth rest
              (explorerList pool prev (depth + 1) (depth + 2) gfs shown).2).1),
         (explorerGroupsAux pool prev depth rest
           (explorerList pool prev (depth + 1) (depth + 2) gfs shown).2).2)) ∧
    (∀ (pool : Pool) (fuel : Nat) (name : String) (depth : Nat)
        (shown : List String) (m : MsgD), name ∉ shown →
      lookupMsg pool name = some m →
      explorerShow pool (fuel + 1) name depth shown =
        (let reg := explorerList pool (explorerShow pool fuel) depth (depth + 1)
          (regularFields m.fields) (name :: shown)
         let grp := explorerGroupsAux pool (explorerShow pool fuel) depth
          (oneofGroups m.fields) reg.2
         (Directive.panel name (depth == 0) :: (reg.1 ++ grp.1), grp.2))) ∧
    (∀ (pool : Pool) (r : Option (String → Bool)) (fm : Bool)
        (recur : String → Nat → List String → List Directive × List String)
        (depth : Nat) (f : FieldD) (shown : List String) (g g' : Option String),
      renderFieldAux pool r fm recur depth (setGroup f g) shown =
        renderFieldAux pool r fm recur depth (setGroup f g') shown) ∧
    (∀ (pool : Pool) (r : Option (String → Bool)) (fm : Bool) (fuel : Nat)
        (name : String) (depth : Nat) (shown : List String) (m : MsgD),
      name ∉ shown → lookupMsg pool name = some m →
      searcherShow pool r fm (fuel + 1) name depth shown =
        (let o := renderFieldsAux pool r fm (searcherShow pool r fm fuel) depth
          m.fields (name :: shown)
         (Directive.panel name
            (depth == 0 || (r.isSome && descriptorMatches pool r name)) ::
          Directive.header name (searchOpt r name) :: o.1, o.2))) := by
  refine ⟨?_, ?_, ?_, ?_, ?_, ?_, ?_⟩
  · intro fields
    have := oneofGroups_keys_aux fields []
    simpa [oneofGroups, firstOccur] using this
  · intro fields g
    have := oneofGroups_bucket_aux fields [] g
    simpa [oneofGroups, getBucket] using this
  · intro fields f
    simp [regularFields, List.mem_filter, Option.isNone_iff_eq_none]
  · intro pool prev depth g gfs rest shown
    rfl
  · intro pool fuel name depth shown m hns hlk
    show explorerShowStep pool (explorerShow pool fuel) name depth shown = _
    simp only [explorerShowStep]
    rw [if_neg hns, hlk]
  · intro pool r fm recur depth f shown g g'
    rfl
  · intro pool r fm fuel name depth shown m hns hlk
    show searcherShowStep pool r fm (searcherShow pool r fm fuel)
      name depth shown = _
    simp only [searcherShowStep]
    rw [if_neg hns, hlk]

/-- **C4 (witness).** On a message with a regular `id` field and a
two-alternative `contact` oneof, `proto_explorer.py`'s render opens a panel,
emits the regular field, then the oneof group. -/
theorem c4_oneof_witness :
    explorerShow oneofPool 2 "o.M" 0 [] =
      (let reg := explorerList oneofPool (explorerShow oneofPool 1) 0 1
        (regularFields mOneof.fields) ["o.M"]
       let grp := explorerGroupsAux oneofPool (explorerShow oneofPool 1) 0
        (oneofGroups mOneof.fields) reg.2
       (Directive.panel "o.M" (0 == 0) :: (reg.1 ++ grp.1), grp.2)) :=
  c4_oneof_partition.2.2.2.2.1 oneofPool 1 "o.M" 0 [] mOneof
    (by decide) (by decide)

/-! ## Claim theorems: `descriptor_matches` -/

theorem length_filter_mono {α : Type} (P Q : α → Bool)
    (h : ∀ x, P x = true → Q x = true) :
    ∀ l : List α, (l.filter P).length ≤ (l.filter Q).length := by
  intro l
  induction l with
  | nil => simp
  | cons x xs ih =>
    by_cases hP : P x = true
    · rw [List.filter_cons_of_pos hP, List.filter_cons_of_pos (h x hP)]
      simpa using ih
    · rw [List.filter_cons_of_neg (by simpa using hP)]
      by_cases hQ : Q x = true
      · rw [List.filter_cons_of_pos hQ]
        exact le_trans ih (by simp)
      · rw [List.filter_cons_of_neg (by simpa using hQ)]
        exact ih

theorem goodFuel_mono (pool : Pool) (s0 s1 : List String) (fuel : Nat)
    (hsub : ∀ x ∈ s0, x ∈ s1) (hg : goodFuel pool s0 fuel) :
    goodFuel pool s1 fuel := by
  unfold goodFuel at hg ⊢
  refine lt_of_le_of_lt (length_filter_mono _ _ ?_ (poolKeys pool)) hg
  intro x hx
  simp only [decide_eq_true_eq] at hx ⊢
  exact fun hc => hx (hsub x hc)

theorem filter_notmem_cons_lt (l : List String) (name : String)
    (seen : List String) (hn : name ∈ l) (hns : name ∉ seen) :
    (l.filter (fun k => decide (k ∉ name :: seen))).length <
      (l.filter (fun k => decide (k ∉ seen))).length := by
  induction l with
  | nil => cases hn
  | cons x xs ih =>
    by_cases hx : x = name
    · subst hx
      rw [List.filter_cons_of_neg (by simp), List.filter_cons_of_pos (by simpa using hns)]
      have := length_filter_mono (fun k => decide (k ∉ x :: seen))
        (fun k => decide (k ∉ seen))
        (by intro k hk; simp only [decide_eq_true_eq] at hk ⊢
            exact fun hc => hk (by simp [hc])) xs
      simp only [List.length_cons]
      omega
    · have hn' : name ∈ xs := by
        rcases List.mem_cons.mp hn with h | h
        · exact absurd h.symm hx
        · exact h
      by_cases hxs : x ∈ seen
      · rw [List.filter_cons_of_neg (by simp [hxs]),
          List.filter_cons_of_neg (by simp [hxs])]
        exact ih hn'
      · rw [List.filter_cons_of_pos (by simp [hxs, hx]),
          List.filter_cons_of_pos (by simpa using hxs)]
        simpa using ih hn'

theorem goodFuel_step (pool : Pool) (name : String) (seen : List String)
    (fuel : Nat) (hmem : name ∈ poolKeys pool) (hns : name ∉ seen)
    (hg : goodFuel pool seen (fuel + 1)) :
    goodFuel pool (name :: seen) fuel := by
  unfold goodFuel at hg ⊢
  have := filter_notmem_cons_lt (poolKeys pool) name seen hmem hns
  omega

theorem lookupMsg_mem_keys (pool : Pool) (name : String) (m : MsgD)
    (h : lookupMsg pool name = some m) : name ∈ poolKeys pool := by
  unfold lookupMsg at h
  cases hf : pool.find? (fun e => decide (e.1 = name)) with
  | none => rw [hf] at h; cases h
  | some e =>
    have he : e ∈ pool := List.mem_of_find?_eq_some hf
    have hp : e.1 = name := by simpa using List.find?_some hf
    exact hp ▸ List.mem_map_of_mem Prod.fst he

theorem msgRefName_ftype {pool : Pool} {f : FieldD} {mn : String}
    (h : msgRefName pool f = some mn) : f.ftype = 11 := by
  unfold msgRefName at h
  by_cases hft : f.ftype = 11
  · exact hft
  · rw [if_neg hft] at h; cases h

theorem enumRefName_none_of_msgRef {pool : Pool} {f : FieldD} {mn : String}
    (h : msgRefName pool f = some mn) : enumRefName f = none := by
  unfold enumRefName
  rw [msgRefName_ftype h]
  simp

theorem localMatch_none {pool : Pool} {r : String → Bool} {n : String}
    (h : lookupMsg pool n = none) : localMatch pool r n = false := by
  simp only [localMatch, h]

theorem localMatch_false_parts {pool : Pool} {r : String → Bool} {n : String}
    {m : MsgD} (hlk : lookupMsg pool n = some m)
    (hr : r n = false) (hf : ∀ f ∈ m.fields, fieldLocal pool r f = false) :
    localMatch pool r n = false := by
  simp only [localMatch, hlk, hr]
  simpa using hf

theorem localMatch_true_of_own {pool : Pool} {r : String → Bool} {n : String}
    {m : MsgD} (hlk : lookupMsg pool n = some m) (hr : r n = true) :
    localMatch pool r n = true := by
  simp only [localMatch, hlk, hr]
  simp

theorem localMatch_true_of_field {pool : Pool} {r : String → Bool} {n : String}
    {m : MsgD} {f : FieldD} (hlk : lookupMsg pool n = some m)
    (hf : f ∈ m.fields) (hloc : fieldLocal pool r f = true) :
    localMatch pool r n = true := by
  have hany : m.fields.any (fieldLocal pool r) = true :=
    List.any_eq_true.mpr ⟨f, hf, hloc⟩
  simp only [localMatch, hlk, hany]
  simp

theorem fieldLocal_of_name {pool : Pool} {r : String → Bool} {f : FieldD}
    (h : r f.name = true) : fieldLocal pool r f = true := by
  simp only [fieldLocal, h]
  simp

theorem fieldLocal_of_msg {pool : Pool} {r : String → Bool} {f : FieldD}
    {mn : String} (hm : msgRefName pool f = some mn) (h : r mn = true) :
    fieldLocal pool r f = true := by
  simp only [fieldLocal, hm, h]
  simp

theorem fieldLocal_of_enum {pool : Pool} {r : String → Bool} {f : FieldD}
    {en : String} (he : enumRefName f = some en) (h : r en = true) :
    fieldLocal pool r f = true := by
  simp only [fieldLocal, he, h]
  simp

theorem fieldLocal_split {pool : Pool} {r : String → Bool} {f : FieldD}
    (h : fieldLocal pool r f = true) :
    r f.name = true ∨
    (∃ mn, msgRefName pool f = some mn ∧ r mn = true) ∨
    (∃ en, enumRefName f = some en ∧ r en = true) := by
  unfold fieldLocal at h
  simp only [Bool.or_eq_true] at h
  rcases h with (h | h) | h
  · exact Or.inl h
  · right; left
    cases hm : msgRefName pool f with
    | none => rw [hm] at h; cases h
    | some mn => rw [hm] at h; exact ⟨mn, rfl, h⟩
  · right; right
    cases he : enumRefName f with
    | none => rw [he] at h; cases h
    | some en => rw [he] at h; exact ⟨en, rfl, h⟩

theorem fieldLocal_false_msg {pool : Pool} {r : String → Bool} {f : FieldD}
    {mn : String} (hm : msgRefName pool f = some mn)
    (h1 : r f.name = false) (h2 : r mn = false) :
    fieldLocal pool r f = false := by
  simp only [fieldLocal, hm, h1, h2, enumRefName_none_of_msgRef hm]
  simp

theorem fieldLocal_false_enum {pool : Pool} {r : String → Bool} {f : FieldD}
    {en : String} (hm : msgRefName pool f = none) (he : enumRefName f = some en)
    (h1 : r f.name = false) (h2 : r en = false) :
    fieldLocal pool r f = false := by
  simp only [fieldLocal, hm, he, h1, h2]
  simp

theorem fieldLocal_false_plain {pool : Pool} {r : String → Bool} {f : FieldD}
    (hm : msgRefName pool f = none) (he : enumRefName f = none)
    (h1 : r f.name = false) :
    fieldLocal pool r f = false := by
  simp only [fieldLocal, hm, he, h1]
  simp

theorem mem_msgChildren {pool : Pool} {n : String} {m : MsgD} {c : String}
    (hlk : lookupMsg pool n = some m) :
    c ∈ msgChildren pool n ↔ ∃ f ∈ m.fields, msgRefName pool f = some c := by
  simp only [msgChildren, hlk]
  simp [List.mem_filterMap]

theorem seenExt_refl (pool : Pool) (r : String → Bool) (s : List String) :
    SeenExt pool r s s :=
  ⟨fun _ hx => hx, fun _ hn hns => absurd hn hns⟩

theorem seenExt_trans {pool : Pool} {r : String → Bool} {s0 s1 s2 : List String}
    (h1 : SeenExt pool r s0 s1) (h2 : SeenExt pool r s1 s2) :
    SeenExt pool r s0 s2 := by
  obtain ⟨a1, b1⟩ := h1
  obtain ⟨a2, b2⟩ := h2
  refine ⟨fun x hx => a2 x (a1 x hx), ?_⟩
  intro n hn hns
  by_cases hmem : n ∈ s1
  · obtain ⟨hl, hc⟩ := b1 n hmem hns
    exact ⟨hl, fun c hcc => a2 c (hc c hcc)⟩
  · exact b2 n hn hmem

theorem fieldsAux_cons_name (pool : Pool) (r : String → Bool)
    (recur : String → List String → Bool × List String)
    (f : FieldD) (fs : List FieldD) (seen : List String)
    (h1 : r f.name = true) :
    dmatchFieldsAux pool r recur (f :: fs) seen = (true, seen) := by
  simp only [dmatchFieldsAux]
  rw [if_pos h1]

theorem fieldsAux_cons_msg (pool : Pool) (r : String → Bool)
    (recur : String → List String → Bool × List String)
    (f : FieldD) (fs : List FieldD) (seen : List String) (mn : String)
    (h1 : r f.name = false) (hm : msgRefName pool f = some mn) :
    dmatchFieldsAux pool r recur (f :: fs) seen =
      (if r mn = true then (true, seen)
       else
         match recur mn seen with
         | (true, s') => (true, s')
         | (false, s') => dmatchFieldsAux pool r recur fs s') := by
  simp only [dmatchFieldsAux, hm]
  rw [if_neg (by simp [h1])]

theorem fieldsAux_cons_enum (pool : Pool) (r : String → Bool)
    (recur : String → List String → Bool × List String)
    (f : FieldD) (fs : List FieldD) (seen : List String) (en : String)
    (h1 : r f.name = false) (hm : msgRefName pool f = none)
    (he : enumRefName f = some en) :
    dmatchFieldsAux pool r recur (f :: fs) seen =
      (if r en = true then (true, seen)
       else dmatchFieldsAux pool r recur fs seen) := by
  simp only [dmatchFieldsAux, hm, he]
  rw [if_neg (by simp [h1])]

theorem fieldsAux_cons_plain (pool : Pool) (r : String → Bool)
    (recur : String → List String → Bool × List String)
    (f : FieldD) (fs : List FieldD) (seen : List String)
    (h1 : r f.name = false) (hm : msgRefName pool f = none)
    (he : enumRefName f = none) :
    dmatchFieldsAux pool r recur (f :: fs) seen =
      dmatchFieldsAux pool r recur fs seen := by
  simp only [dmatchFieldsAux, hm, he]
  rw [if_neg (by simp [h1])]

theorem goStep_seen (pool : Pool) (r : String → Bool)
    (prev : String → List String → Bool × List String)
    (name : String) (seen : List String) (h : name ∈ seen) :
    dmatchGoStep pool r prev name seen = (false, seen) := by
  simp only [dmatchGoStep]
  rw [if_pos h]

theorem goStep_none (pool : Pool) (r : String → Bool)
    (prev : String → List String → Bool × List String)
    (name : String) (seen : List String) (h : name ∉ seen)
    (hlk : lookupMsg pool name = none) :
    dmatchGoStep pool r prev name seen = (false, name :: seen) := by
  simp only [dmatchGoStep, hlk]
  rw [if_neg h]

theorem goStep_own (pool : Pool) (r : String → Bool)
    (prev : String → List String → Bool × List String)
    (name : String) (seen : List String) (m : MsgD) (h : name ∉ seen)
    (hlk : lookupMsg pool name = some m) (hr : r name = true) :
    dmatchGoStep pool r prev name seen = (true, name :: seen) := by
  simp only [dmatchGoStep, hlk]
  rw [if_neg h, if_pos hr]

theorem goStep_fields (pool : Pool) (r : String → Bool)
    (prev : String → List String → Bool × List String)
    (name : String) (seen : List String) (m : MsgD) (h : name ∉ seen)
    (hlk : lookupMsg pool name = some m) (hr : r name = false) :
    dmatchGoStep pool r prev name seen =
      dmatchFieldsAux pool r prev m.fields (name :: seen) := by
  simp only [dmatchGoStep, hlk]
  rw [if_neg h, if_neg (by simp [hr])]

theorem dmatchFieldsAux_sound (pool : Pool) (r : String → Bool)
    (recur : String → List String → Bool × List String)
    (hrec : ∀ mn s, (recur mn s).1 = true → IdealMatch pool r mn) :
    ∀ (fs : List FieldD) (seen : List String),
      (dmatchFieldsAux pool r recur fs seen).1 = true →
      ∃ f ∈ fs, fieldLocal pool r f = true ∨
        ∃ mn, msgRefName pool f = some mn ∧ IdealMatch pool r mn := by
  intro fs
  induction fs with
  | nil => intro seen h; simp [dmatchFieldsAux] at h
  | cons f fs ih =>
    intro seen h
    simp only [dmatchFieldsAux] at h
    by_cases h1 : r f.name = true
    · exact ⟨f, by simp, Or.inl (fieldLocal_of_name h1)⟩
    · rw [if_neg h1] at h
      cases hm : msgRefName pool f with
      | some mn =>
        simp only [hm] at h
        by_cases h2 : r mn = true
        · exact ⟨f, by simp, Or.inl (fieldLocal_of_msg hm h2)⟩
        · rw [if_neg h2] at h
          rcases hrr : recur mn seen with ⟨b, s1⟩
          rw [hrr] at h
          cases b with
          | true =>
            exact ⟨f, by simp, Or.inr ⟨mn, hm, hrec mn seen (by rw [hrr])⟩⟩
          | false =>
            obtain ⟨f', hf', hp⟩ := ih s1 h
            exact ⟨f', by simp [hf'], hp⟩
      | none =>
        simp only [hm] at h
        cases he : enumRefName f with
        | some en =>
          simp only [he] at h
          by_cases h3 : r en = true
          · exact ⟨f, by simp, Or.inl (fieldLocal_of_enum he h3)⟩
          · rw [if_neg h3] at h
            obtain ⟨f', hf', hp⟩ := ih seen h
            exact ⟨f', by simp [hf'], hp⟩
        | none =>
          simp only [he] at h
          obtain ⟨f', hf', hp⟩ := ih seen h
          exact ⟨f', by simp [hf'], hp⟩

theorem dmatchGo_sound (pool : Pool) (r : String → Bool) :
    ∀ (fuel : Nat) (name : String) (seen : List String),
      (dmatchGo pool r fuel name seen).1 = true → IdealMatch pool r name := by
  intro fuel
  induction fuel with
  | zero => intro name seen h; simp [dmatchGo] at h
  | succ fuel ih =>
    intro name seen h
    have h' : (dmatchGoStep pool r (dmatchGo pool r fuel) name seen).1 = true := h
    simp only [dmatchGoStep] at h'
    by_cases hseen : name ∈ seen
    · rw [if_pos hseen] at h'; simp at h'
    · rw [if_neg hseen] at h'
      cases hlk : lookupMsg pool name with
      | none => simp only [hlk] at h'; simp at h'
      | some m =>
        simp only [hlk] at h'
        by_cases hr : r name = true
        · exact IdealMatch.own hlk hr
        · rw [if_neg hr] at h'
          obtain ⟨f, hf, hp⟩ := dmatchFieldsAux_sound pool r (dmatchGo pool r fuel)
            (fun mn s hmn => ih mn s hmn) m.fields (name :: seen) h'
          rcases hp with hloc | ⟨mn, hmn, hid⟩
          · rcases fieldLocal_split hloc with h1 | ⟨mn, hm2, h2⟩ | ⟨en, he2, h3⟩
            · exact IdealMatch.fieldName hlk hf h1
            · exact IdealMatch.refMsg hlk hf hm2 h2
            · exact IdealMatch.refEnum hlk hf he2 h3
          · exact IdealMatch.recur hlk hf hmn hid

theorem dmatchGo_false (pool : Pool) (r : String → Bool) :
    ∀ (fuel : Nat) (name : String) (seen seen' : List String),
      goodFuel pool seen fuel →
      dmatchGo pool r fuel name seen = (false, seen') →
      SeenExt pool r seen seen' ∧ name ∈ seen' := by
  intro fuel
  induction fuel with
  | zero =>
    intro name seen seen' hg _
    exact absurd hg (by simp [goodFuel])
  | succ fuel ih =>
    have hfields : ∀ (fs : List FieldD) (seen seen' : List String),
        goodFuel pool seen fuel →
        dmatchFieldsAux pool r (dmatchGo pool r fuel) fs seen = (false, seen') →
        SeenExt pool r seen seen' ∧
          ∀ f ∈ fs, fieldLocal pool r f = false ∧
            ∀ mn, msgRefName pool f = some mn → mn ∈ seen' := by
      intro fs
      induction fs with
      | nil =>
        intro seen seen' hg h
        simp only [dmatchFieldsAux] at h
        injection h with _ h2
        subst h2
        exact ⟨seenExt_refl pool r seen, by simp⟩
      | cons f fs ihf =>
        intro seen seen' hg h
        simp only [dmatchFieldsAux] at h
        by_cases h1 : r f.name = true
        · rw [if_pos h1] at h; simp at h
        · rw [if_neg h1] at h
          have h1' : r f.name = false := by simpa using h1
          cases hm : msgRefName pool f with
          | some mn =>
            simp only [hm] at h
            by_cases h2 : r mn = true
            · rw [if_pos h2] at h; simp at h
            · rw [if_neg h2] at h
              have h2' : r mn = false := by simpa using h2
              rcases hrr : dmatchGo pool r fuel mn seen with ⟨b, s1⟩
              rw [hrr] at h
              cases b with
              | true => simp at h
              | false =>
                obtain ⟨hse1, hmn1⟩ := ih mn seen s1 hg hrr
                have hg1 : goodFuel pool s1 fuel :=
                  goodFuel_mono pool seen s1 fuel hse1.1 hg
                obtain ⟨hse2, hprops⟩ := ihf s1 seen' hg1 h
                refine ⟨seenExt_trans hse1 hse2, ?_⟩
                intro f' hf'
                rcases List.mem_cons.mp hf' with rfl | hf'
                · refine ⟨fieldLocal_false_msg hm h1' h2', ?_⟩
                  intro mn' hmn'
                  rw [hm] at hmn'
                  injection hmn' with e
                  exact e ▸ hse2.1 mn hmn1
                · exact hprops f' hf'
          | none =>
            simp only [hm] at h
            cases he : enumRefName f with
            | some en =>
              simp only [he] at h
              by_cases h3 : r en = true
              · rw [if_pos h3] at h; simp at h
              · rw [if_neg h3] at h
                have h3' : r en = false := by simpa using h3
                obtain ⟨hse2, hprops⟩ := ihf seen seen' hg h
                refine ⟨hse2, ?_⟩
                intro f' hf'
                rcases List.mem_cons.mp hf' with rfl | hf'
                · refine ⟨fieldLocal_false_enum hm he h1' h3', ?_⟩
                  intro mn' hmn'
                  rw [hm] at hmn'
                  cases hmn'
                · exact hprops f' hf'
            | none =>
              simp only [he] at h
              obtain ⟨hse2, hprops⟩ := ihf seen seen' hg h
              refine ⟨hse2, ?_⟩
              intro f' hf'
              rcases List.mem_cons.mp hf' with rfl | hf'
              · refine ⟨fieldLocal_false_plain hm he h1', ?_⟩
                intro mn' hmn'
                rw [hm] at hmn'
                cases hmn'
              · exact hprops f' hf'
    intro name seen seen' hg h
    have h' : dmatchGoStep pool r (dmatchGo pool r fuel) name seen =
        (false, seen') := h
    simp only [dmatchGoStep] at h'
    by_cases hseen : name ∈ seen
    · rw [if_pos hseen] at h'
      injection h' with _ h2
      subst h2
      exact ⟨seenExt_refl pool r seen, hseen⟩
    · rw [if_neg hseen] at h'
      cases hlk : lookupMsg pool name with
      | none =>
        simp only [hlk] at h'
        injection h' with _ h2
        subst h2
        refine ⟨⟨fun x hx => by simp [hx], ?_⟩, by simp⟩
        intro n hn hns
        have hne : n = name := by
          rcases List.mem_cons.mp hn with h0 | h0
          · exact h0
          · exact absurd h0 hns
        subst hne
        refine ⟨localMatch_none hlk, ?_⟩
        intro c hc
        simp [msgChildren, hlk] at hc
      | some m =>
        simp only [hlk] at h'
        by_cases hr : r name = true
        · rw [if_pos hr] at h'; simp at h'
        · rw [if_neg hr] at h'
          have hg1 : goodFuel pool (name :: seen) fuel :=
            goodFuel_step pool name seen fuel
              (lookupMsg_mem_keys pool name m hlk) hseen hg
          obtain ⟨hse2, hprops⟩ := hfields m.fields (name :: seen) seen' hg1 h'
          have hnamein : name ∈ seen' := hse2.1 name (by simp)
          refine ⟨⟨fun x hx => hse2.1 x (by simp [hx]), ?_⟩, hnamein⟩
          intro n hn hns
          by_cases hnname : n = name
          · subst hnname
            have hr' : r n = false := by simpa using hr
            refine ⟨localMatch_false_parts hlk hr'
              (fun f hf => (hprops f hf).1), ?_⟩
            intro c hc
            obtain ⟨f, hf, hmc⟩ := (mem_msgChildren hlk).mp hc
            exact (hprops f hf).2 c hmc
          · have hn2 : n ∉ name :: seen := by
              intro hc
              rcases List.mem_cons.mp hc with h0 | h0
              · exact hnname h0
              · exact hns h0
            exact hse2.2 n hn hn2

theorem ideal_not_of_seenExt (pool : Pool) (r : String → Bool) (s : List String)
    (hse : SeenExt pool r [] s) :
    ∀ n, IdealMatch pool r n → n ∈ s → False := by
  intro n hid
  induction hid with
  | own hlk hr =>
    intro hn
    have hl := (hse.2 _ hn (by simp)).1
    rw [localMatch_true_of_own hlk hr] at hl
    cases hl
  | fieldName hlk hf hr =>
    intro hn
    have hl := (hse.2 _ hn (by simp)).1
    rw [localMatch_true_of_field hlk hf (fieldLocal_of_name hr)] at hl
    cases hl
  | refMsg hlk hf hm hr =>
    intro hn
    have hl := (hse.2 _ hn (by simp)).1
    rw [localMatch_true_of_field hlk hf (fieldLocal_of_msg hm hr)] at hl
    cases hl
  | refEnum hlk hf he hr =>
    intro hn
    have hl := (hse.2 _ hn (by simp)).1
    rw [localMatch_true_of_field hlk hf (fieldLocal_of_enum he hr)] at hl
    cases hl
  | recur hlk hf hm _ ihrec =>
    intro hn
    have hch := (hse.2 _ hn (by simp)).2
    exact ihrec (hch _ ((mem_msgChildren hlk).mpr ⟨_, hf, hm⟩))

theorem dmatch_nodup (pool : Pool) (r : String → Bool) :
    ∀ (fuel : Nat) (name : String) (seen : List String), seen.Nodup →
      ((dmatchGo pool r fuel name seen).2).Nodup := by
  intro fuel
  induction fuel with
  | zero => intro name seen h; exact h
  | succ fuel ih =>
    have hfieldsN : ∀ (fs : List FieldD) (seen : List String), seen.Nodup →
        ((dmatchFieldsAux pool r (dmatchGo pool r fuel) fs seen).2).Nodup := by
      intro fs
      induction fs with
      | nil => intro seen h; exact h
      | cons f fs ihf =>
        intro seen hnd
        by_cases h1 : r f.name = true
        · rw [fieldsAux_cons_name pool r _ f fs seen h1]; exact hnd
        · have h1' : r f.name = false := by simpa using h1
          cases hm : msgRefName pool f with
          | some mn =>
            rw [fieldsAux_cons_msg pool r _ f fs seen mn h1' hm]
            by_cases h2 : r mn = true
            · rw [if_pos h2]; exact hnd
            · rw [if_neg h2]
              rcases hrr : dmatchGo pool r fuel mn seen with ⟨b, s1⟩
              have hs1 : s1.Nodup := by
                have hx := ih mn seen hnd
                rw [hrr] at hx
                exact hx
              cases b
              · exact ihf s1 hs1
              · exact hs1
          | none =>
            cases he : enumRefName f with
            | some en =>
              rw [fieldsAux_cons_enum pool r _ f fs seen en h1' hm he]
              by_cases h3 : r en = true
              · rw [if_pos h3]; exact hnd
              · rw [if_neg h3]; exact ihf seen hnd
            | none =>
              rw [fieldsAux_cons_plain pool r _ f fs seen h1' hm he]
              exact ihf seen hnd
    intro name seen hnd
    show ((dmatchGoStep pool r (dmatchGo pool r fuel) name seen).2).Nodup
    by_cases hseen : name ∈ seen
    · rw [goStep_seen pool r _ name seen hseen]; exact hnd
    · cases hlk : lookupMsg pool name with
      | none =>
        rw [goStep_none pool r _ name seen hseen hlk]
        exact List.nodup_cons.mpr ⟨hseen, hnd⟩
      | some m =>
        by_cases hr : r name = true
        · rw [goStep_own pool r _ name seen m hseen hlk hr]
          exact List.nodup_cons.mpr ⟨hseen, hnd⟩
        · rw [goStep_fields pool r _ name seen m hseen hlk (by simpa using hr)]
          exact hfieldsN m.fields (name :: seen) (List.nodup_cons.mpr ⟨hseen, hnd⟩)

/-- **C7.** `descriptor_matches` is correct on every descriptor graph,
cyclic ones included, and for every pattern: with any fuel exceeding the
number of pool entries (so for any two sufficient fuels the answers agree —
the recursion terminates), it returns `true` iff the pattern matches the
descriptor's own full name, or some direct field's name, or the full name of
some directly referenced message or enum type, or some directly referenced
message type recursively satisfies the predicate (`IdealMatch`); moreover
the final visited set holds each full name at most once (each distinct full
name is expanded at most once per top-level call), and the top-level
`descriptor_matches` wrapper satisfies the same characterization. -/
theorem c7_descriptor_matches_correct (pool : Pool) (r : String → Bool)
    (name : String) (fuel : Nat) (hfuel : (poolKeys pool).length < fuel) :
    ((dmatchGo pool r fuel name []).1 = true ↔ IdealMatch pool r name) ∧
    ((dmatchGo pool r fuel name []).2).Nodup ∧
    (descriptorMatches pool (some r) name = true ↔ IdealMatch pool r name) := by
  have hgood : ∀ fu : Nat, (poolKeys pool).length < fu → goodFuel pool [] fu := by
    intro fu hfu
    unfold goodFuel
    have hid : (poolKeys pool).filter (fun k => decide (k ∉ ([] : List String))) =
        poolKeys pool := by
      apply List.filter_eq_self.mpr
      intro a _
      simp
    rw [hid]
    exact hfu
  have main : ∀ fu : Nat, (poolKeys pool).length < fu →
      ((dmatchGo pool r fu name []).1 = true ↔ IdealMatch pool r name) := by
    intro fu hfu
    constructor
    · exact dmatchGo_sound pool r fu name []
    · intro hid
      by_contra hfalse
      have hf : (dmatchGo pool r fu name []).1 = false := by
        cases hx : (dmatchGo pool r fu name []).1
        · rfl
        · exact absurd hx hfalse
      obtain ⟨hse, hmem⟩ := dmatchGo_false pool r fu name []
        (dmatchGo pool r fu name []).2 (hgood fu hfu) (Prod.ext hf rfl)
      exact ideal_not_of_seenExt pool r _ hse name hid hmem
  refine ⟨main fuel hfuel, dmatch_nodup pool r fuel name [] List.nodup_nil, ?_⟩
  show (dmatchGo pool r (pool.length + 1) name []).1 = true ↔ _
  exact main (pool.length + 1) (by simp [poolKeys])

/-- **C7 (witness).** On the three-cycle `cyc.A → cyc.B → cyc.C → cyc.A`
with a pattern matching only the full name `cyc.C`, the search from `cyc.A`
returns true: `cyc.B` is a directly referenced message whose field references
a message whose full name matches. -/
theorem c7_descriptor_matches_witness :
    (dmatchGo cyclePool rHit 4 "cyc.A" []).1 = true :=
  (c7_descriptor_matches_correct cyclePool rHit "cyc.A" 4 (by decide)).1.mpr
    (IdealMatch.recur rfl (List.mem_singleton_self fAB) rfl
      (IdealMatch.refMsg rfl (List.mem_singleton_self fBC) rfl (by decide)))

end ProtoExplorer
